import Mathlib

/-!
Verification of the textClust stream-clustering engine
(`river/cluster/textclust.py`) against its natural-language specification.

The Python code is shallowly embedded: dictionaries become association
lists (Python 3 dicts preserve insertion order, so does a list), floats
become real numbers, `pow(2, x)` becomes the real power `(2 : ℝ) ^ x`
(`Real.rpow`), and code paths that raise exceptions return `none` /
`Except.error`.  Field and function names follow the source.
-/

namespace Textclust

open Real

/-- Association-list lookup, modelling Python `d[k]` / `k in d`.
Python dicts hold each key once; our lists are built the same way. -/
def lookupA {α β : Type} [DecidableEq α] : List (α × β) → α → Option β
  | [], _ => none
  | p :: t, k => if p.1 = k then some p.2 else lookupA t k

/-- One value of the per-cluster term dictionary `self.tf[k]`:
the decayed term frequency `["tf"]` and the contributing ids `["ids"]`. -/
structure TermEntry where
  tf : ℝ
  ids : List (Option ℤ)

/-- The dict `self.tf` mapping a term to its entry (insertion order kept). -/
abbrev TermMap := List (String × TermEntry)

/-- `textclust.microcluster`: the mutable unit of summarization. -/
structure Microcluster where
  id : Option ℕ
  weight : ℝ
  time : ℝ
  tf : TermMap
  oldweight : ℝ
  deltaweight : ℝ
  realtime : Option ℝ
  textids : List (Option ℤ)
  n : ℕ

/-- `microcluster.__init__(tf, time, weight, realtime, textid, clusterid)`. -/
def mkMicrocluster (tf : TermMap) (time : ℝ) (weight : ℝ) (realtime : Option ℝ)
    (textid : Option ℤ) (clusterid : Option ℕ) : Microcluster :=
  { id := clusterid, weight := weight, time := time, tf := tf,
    oldweight := 0, deltaweight := 0, realtime := realtime,
    textids := [textid], n := 1 }

/-- `microcluster.fade(tnow, omega, _lambda, termfading, realtime)`:
`weight *= 2 ** (-_lambda * (tnow - time))`; with term fading every term
frequency decays the same way and terms with decayed frequency `<= omega`
are deleted; finally `time := tnow`, `realtime := realtime`. -/
noncomputable def Microcluster.fade (mc : Microcluster) (tnow omega lam : ℝ)
    (termfading : Bool) (realtime : Option ℝ) : Microcluster :=
  let factor : ℝ := (2 : ℝ) ^ (-lam * (tnow - mc.time))
  let tf' : TermMap :=
    if termfading then
      (mc.tf.map (fun p => (p.1, { p.2 with tf := p.2.tf * factor }))).filter
        (fun p => if p.2.tf ≤ omega then false else true)
    else mc.tf
  { mc with weight := mc.weight * factor, tf := tf', time := tnow, realtime := realtime }

/-- Merging a term of the source cluster into the target's term dict:
`tf[k]["tf"] += ...` and `ids` concatenated when the key exists,
otherwise a fresh entry is appended (Python dict insertion). -/
def addTerm (tf : TermMap) (k : String) (e : TermEntry) : TermMap :=
  if (lookupA tf k).isSome then
    tf.map (fun p => if p.1 = k then (p.1, { tf := p.2.tf + e.tf, ids := p.2.ids ++ e.ids }) else p)
  else tf ++ [(k, e)]

/-- `microcluster.merge(microcluster, t, omega, _lambda, termfading, realtime)`.
Note the order of operations in the source: the text ids are concatenated,
the source weight is added to the target weight, and only THEN are both
clusters faded to `t` (the combined weight therefore fades from the
target's own last-update time); finally the source's (already faded)
term frequencies are folded into the target's term dict. -/
noncomputable def Microcluster.merge (self other : Microcluster) (t omega lam : ℝ)
    (termfading : Bool) (realtime : Option ℝ) : Microcluster :=
  let m1 := { self with textids := self.textids ++ other.textids, realtime := realtime }
  let m2 := { m1 with weight := m1.weight + other.weight }
  let m3 := m2.fade t omega lam termfading realtime
  let o3 := other.fade t omega lam termfading realtime
  let m4 := { m3 with time := t }
  { m4 with tf := o3.tf.foldl (fun acc p => addTerm acc p.1 p.2) m4.tf }

/-- The fading formula of the spec: `fade(w, elapsed, rate) = w * 2^(-rate*elapsed)`. -/
noncomputable def fadeWeight (w lam elapsed : ℝ) : ℝ := w * (2 : ℝ) ^ (-lam * elapsed)

/-! Small helpers to evaluate concrete real powers of two. -/

lemma two_rpow_neg_one : (2 : ℝ) ^ (-1 : ℝ) = 1 / 2 := by
  rw [show (-1 : ℝ) = ((-1 : ℤ) : ℝ) by norm_num, Real.rpow_intCast]
  norm_num

lemma two_rpow_neg_two : (2 : ℝ) ^ (-2 : ℝ) = 1 / 4 := by
  rw [show (-2 : ℝ) = ((-2 : ℤ) : ℝ) by norm_num, Real.rpow_intCast]
  norm_num

lemma fade_weight_eq (mc : Microcluster) (tnow omega lam : ℝ) (tfad : Bool) (rt : Option ℝ) :
    (mc.fade tnow omega lam tfad rt).weight = mc.weight * (2 : ℝ) ^ (-lam * (tnow - mc.time)) := rfl

lemma merge_weight_eq (a b : Microcluster) (t omega lam : ℝ) (tfad : Bool) (rt : Option ℝ) :
    (a.merge b t omega lam tfad rt).weight
      = (a.weight + b.weight) * (2 : ℝ) ^ (-lam * (t - a.time)) := rfl

/-- Cluster `A` of the C1 counterexample: weight 1, last updated at time 0. -/
noncomputable def mcA : Microcluster := mkMicrocluster [] 0 1 none none (some 0)

/-- Cluster `B` of the C1 counterexample: weight 1, last updated at time 1. -/
noncomputable def mcB : Microcluster := mkMicrocluster [] 1 1 none none (some 1)

/-- C1, counterexample.  Merging `B` (weight 1, time 1) into `A` (weight 1,
time 0) at time `t = 2` with `_lambda = 1` yields weight
`(1+1) * 2^(-2) = 1/2`, while the claimed value
`fade(wA, tA→t) + fade(wB, tB→t) = 2^(-2) + 2^(-1) = 3/4` differs: the code
adds the two weights BEFORE fading, so the source weight is faded from the
target's timestamp, not from its own. -/
theorem C1_merge_weight_counterexample :
    (mcA.merge mcB 2 0 1 false none).weight = 1 / 2 ∧
    fadeWeight mcA.weight 1 (2 - mcA.time) + fadeWeight mcB.weight 1 (2 - mcB.time) = 3 / 4 ∧
    (mcA.merge mcB 2 0 1 false none).weight ≠
      fadeWeight mcA.weight 1 (2 - mcA.time) + fadeWeight mcB.weight 1 (2 - mcB.time) := by
  have h2 : (-(1:ℝ) * (2 - 0)) = (-2 : ℝ) := by norm_num
  have h1 : (-(1:ℝ) * (2 - 1)) = (-1 : ℝ) := by norm_num
  have e1 : (mcA.merge mcB 2 0 1 false none).weight = 1 / 2 := by
    rw [merge_weight_eq]
    show ((1:ℝ) + 1) * (2 : ℝ) ^ (-(1:ℝ) * (2 - 0)) = 1 / 2
    rw [h2, two_rpow_neg_two]; norm_num
  have e2 : fadeWeight mcA.weight 1 (2 - mcA.time) + fadeWeight mcB.weight 1 (2 - mcB.time)
      = 3 / 4 := by
    show (1:ℝ) * (2 : ℝ) ^ (-(1:ℝ) * (2 - 0)) + (1:ℝ) * (2 : ℝ) ^ (-(1:ℝ) * (2 - 1)) = 3 / 4
    rw [h2, h1, two_rpow_neg_two, two_rpow_neg_one]; norm_num
  refine ⟨e1, e2, ?_⟩
  rw [e1, e2]; norm_num

/-- C1, amended.  For any two clusters `A`, `B` merged at time `t`, the
resulting weight is `fade(wA + wB, tA→t)`, i.e. the SUM of the two weights
faded from the target's last-update time `tA`; equivalently
`fade(wA, tA→t) + fade(wB, tA→t)`.  (The source's own timestamp `tB` is
never used for the weight.) -/
theorem C1_merge_weight (a b : Microcluster) (t omega lam : ℝ) (tfad : Bool) (rt : Option ℝ) :
    (a.merge b t omega lam tfad rt).weight
      = fadeWeight a.weight lam (t - a.time) + fadeWeight b.weight lam (t - a.time) := by
  rw [merge_weight_eq]
  unfold fadeWeight
  ring

/-- C8, counterexample.  The claim quantifies over every non-negative weight
and every decay rate: at weight `0` (with `decayRate = 1`, elapsed time `1`)
the faded weight equals the original, not strictly less; and at
`decayRate = -1` the faded weight exceeds the original, violating the
claimed `fade(w) ≤ w`. -/
theorem C8_fade_counterexample :
    ¬ ((mkMicrocluster [] 0 0 none none none).fade 1 0 1 false none).weight
        < (mkMicrocluster [] 0 0 none none none).weight ∧
    ¬ ((mkMicrocluster [] 0 1 none none none).fade 1 0 (-1) false none).weight
        ≤ (mkMicrocluster [] 0 1 none none none).weight := by
  constructor
  · rw [fade_weight_eq]
    show ¬ (0:ℝ) * (2 : ℝ) ^ (-(1:ℝ) * (1 - 0)) < 0
    simp
  · rw [fade_weight_eq]
    show ¬ (1:ℝ) * (2 : ℝ) ^ (-(-1:ℝ) * (1 - 0)) ≤ 1
    have : (-(-1:ℝ) * (1 - 0)) = ((1 : ℤ) : ℝ) := by norm_num
    rw [this, Real.rpow_intCast]
    norm_num

/-- C8, amended.  `fade` multiplies the weight by `2^(-decayRate*elapsed)`;
for every weight `w ≥ 0`, elapsed time `> 0` and decay rate `≥ 0` the faded
weight is at most the original, and strictly smaller when additionally the
decay rate and the weight are strictly positive. -/
theorem C8_fade_monotone (mc : Microcluster) (tnow omega lam : ℝ) (tfad : Bool)
    (rt : Option ℝ) (hw : 0 ≤ mc.weight) (hlam : 0 ≤ lam) (ht : mc.time < tnow) :
    (mc.fade tnow omega lam tfad rt).weight
        = mc.weight * (2 : ℝ) ^ (-lam * (tnow - mc.time)) ∧
    (mc.fade tnow omega lam tfad rt).weight ≤ mc.weight ∧
    (0 < lam → 0 < mc.weight → (mc.fade tnow omega lam tfad rt).weight < mc.weight) := by
  have hd : 0 < tnow - mc.time := by linarith
  refine ⟨rfl, ?_, ?_⟩
  · rw [fade_weight_eq]
    have hle : (2 : ℝ) ^ (-lam * (tnow - mc.time)) ≤ 1 := by
      apply Real.rpow_le_one_of_one_le_of_nonpos (by norm_num)
      have : 0 ≤ lam * (tnow - mc.time) := mul_nonneg hlam hd.le
      linarith [neg_nonpos_of_nonneg this]
    calc mc.weight * (2 : ℝ) ^ (-lam * (tnow - mc.time))
        ≤ mc.weight * 1 := by
          apply mul_le_mul_of_nonneg_left hle hw
      _ = mc.weight := mul_one _
  · intro hlpos hwpos
    rw [fade_weight_eq]
    have hlt : (2 : ℝ) ^ (-lam * (tnow - mc.time)) < 1 := by
      apply Real.rpow_lt_one_of_one_lt_of_neg (by norm_num)
      have : 0 < lam * (tnow - mc.time) := mul_pos hlpos hd
      linarith
    calc mc.weight * (2 : ℝ) ^ (-lam * (tnow - mc.time))
        < mc.weight * 1 := by
          apply mul_lt_mul_of_pos_left hlt hwpos
      _ = mc.weight := mul_one _

/-- C8, witness: the amended statement applied at weight 3, `time = 0`,
`tnow = 2`, `decayRate = 1`, where the faded weight is `3 * 2^(-2) = 3/4`. -/
theorem C8_fade_monotone_witness :
    ((mkMicrocluster [] 0 3 none none none).fade 2 0 1 false none).weight
        = (mkMicrocluster [] 0 3 none none none).weight * (2 : ℝ) ^ (-(1:ℝ) * (2 - 0)) ∧
    ((mkMicrocluster [] 0 3 none none none).fade 2 0 1 false none).weight
        ≤ (mkMicrocluster [] 0 3 none none none).weight ∧
    (0 < (1:ℝ) → 0 < (mkMicrocluster [] 0 3 none none none).weight →
      ((mkMicrocluster [] 0 3 none none none).fade 2 0 1 false none).weight
        < (mkMicrocluster [] 0 3 none none none).weight) := by
  have h := C8_fade_monotone (mkMicrocluster [] 0 3 none none none) 2 0 1 false none
    (by norm_num [mkMicrocluster]) (by norm_num) (by norm_num [mkMicrocluster])
  exact h

/-! ### IDF computation (`textclust._calculateIDF`) -/

/-- One step of the document-frequency count: `result[k] = 1` if the term is
new, `result[k] += 1` otherwise. -/
def dfInsert (acc : List (String × ℕ)) (k : String) : List (String × ℕ) :=
  if (lookupA acc k).isSome then
    acc.map (fun p => if p.1 = k then (p.1, p.2 + 1) else p)
  else acc ++ [(k, 1)]

/-- The first loop of `_calculateIDF`: for every cluster, for every term key,
bump the document frequency. -/
def dfCounts (micros : List Microcluster) : List (String × ℕ) :=
  micros.foldl (fun acc m => (m.tf.map Prod.fst).foldl dfInsert acc) []

/-- `textclust._calculateIDF(microclusters)`:
`result[k] = 1 + log(len(microclusters) / documentFrequency[k])`. -/
noncomputable def calculateIDF (micros : List Microcluster) : List (String × ℝ) :=
  (dfCounts micros).map (fun p => (p.1, 1 + Real.log ((micros.length : ℝ) / (p.2 : ℝ))))

lemma lookupA_nil {α β : Type} [DecidableEq α] (k : α) :
    lookupA ([] : List (α × β)) k = none := rfl

lemma lookupA_cons {α β : Type} [DecidableEq α] (p : α × β) (t : List (α × β)) (k : α) :
    lookupA (p :: t) k = if p.1 = k then some p.2 else lookupA t k := rfl

lemma lookupA_append {α β : Type} [DecidableEq α] (l1 l2 : List (α × β)) (k : α) :
    lookupA (l1 ++ l2) k =
      match lookupA l1 k with
      | some v => some v
      | none => lookupA l2 k := by
  induction l1 with
  | nil => simp [lookupA]
  | cons p t ih =>
      by_cases h : p.1 = k
      · simp [lookupA_cons, h]
      · simpa [lookupA_cons, h] using ih

lemma lookupA_eq_none_iff {α β : Type} [DecidableEq α] (l : List (α × β)) (k : α) :
    lookupA l k = none ↔ k ∉ l.map Prod.fst := by
  induction l with
  | nil => simp [lookupA]
  | cons p t ih =>
      by_cases h : p.1 = k
      · simp [lookupA_cons, h]
      · simp [lookupA_cons, h, ih, Ne.symm h]

lemma lookupA_bump (acc : List (String × ℕ)) (k k' : String) :
    lookupA (acc.map (fun p => if p.1 = k then (p.1, p.2 + 1) else p)) k' =
      if k' = k then (lookupA acc k').map (· + 1) else lookupA acc k' := by
  induction acc with
  | nil => simp [lookupA]
  | cons p t ih =>
      by_cases hpk : p.1 = k
      · by_cases hk : k' = k
        · subst hk
          simp [lookupA_cons, hpk, ih]
        · have hpk' : ¬ p.1 = k' := by rw [hpk]; exact fun h => hk h.symm
          have hkk' : ¬ k = k' := fun h => hk h.symm
          simp [lookupA_cons, hpk, hpk', ih, hk, hkk']
      · by_cases hpk' : p.1 = k'
        · by_cases hk : k' = k
          · exact absurd (hpk'.trans hk) hpk
          · simp [lookupA_cons, hpk, hpk', hk]
        · simp [lookupA_cons, hpk, hpk', ih]

lemma valD_dfInsert (acc : List (String × ℕ)) (k k' : String) :
    ((lookupA (dfInsert acc k) k').getD 0)
      = (lookupA acc k').getD 0 + (if k' = k then 1 else 0) := by
  unfold dfInsert
  by_cases hs : (lookupA acc k).isSome
  · rw [if_pos hs, lookupA_bump]
    by_cases hk : k' = k
    · subst hk
      obtain ⟨v, hv⟩ := Option.isSome_iff_exists.mp hs
      simp [hv]
    · simp [hk]
  · rw [if_neg hs, lookupA_append]
    have hnone : lookupA acc k = none := Option.not_isSome_iff_eq_none.mp hs
    by_cases hk : k' = k
    · subst hk
      simp [hnone, lookupA_cons]
    · have hkk' : ¬ k = k' := fun h => hk h.symm
      cases h : lookupA acc k' with
      | some v => simp [h, hk]
      | none => simp [h, lookupA_cons, lookupA_nil, hk, hkk']

lemma valD_foldl_dfInsert (ks : List String) (hnd : ks.Nodup)
    (acc : List (String × ℕ)) (k : String) :
    ((lookupA (ks.foldl dfInsert acc) k).getD 0)
      = (lookupA acc k).getD 0 + (if k ∈ ks then 1 else 0) := by
  induction ks generalizing acc with
  | nil => simp
  | cons a t ih =>
      have hnd' : t.Nodup := hnd.of_cons
      have hat : a ∉ t := (List.nodup_cons.mp hnd).1
      rw [List.foldl_cons, ih hnd', valD_dfInsert]
      by_cases hka : k = a
      · subst hka
        have hkt : k ∉ t := hat
        simp [hkt]
      · by_cases hkt : k ∈ t
        · simp [hka, hkt]
        · simp [hka, hkt]

lemma dfInsert_one_le (acc : List (String × ℕ)) (k : String)
    (h : ∀ p ∈ acc, 1 ≤ p.2) : ∀ p ∈ dfInsert acc k, 1 ≤ p.2 := by
  intro p hp
  unfold dfInsert at hp
  by_cases hs : (lookupA acc k).isSome
  · rw [if_pos hs] at hp
    obtain ⟨q, hq, rfl⟩ := List.mem_map.mp hp
    by_cases hqk : q.1 = k
    · have : 1 ≤ q.2 + 1 := by omega
      simpa [hqk] using this
    · simpa [hqk] using h q hq
  · rw [if_neg hs] at hp
    rcases List.mem_append.mp hp with hp | hp
    · exact h p hp
    · have : p = (k, 1) := by simpa using hp
      simp [this]

lemma dfInsert_keys_nodup (acc : List (String × ℕ)) (k : String)
    (h : (acc.map Prod.fst).Nodup) : ((dfInsert acc k).map Prod.fst).Nodup := by
  unfold dfInsert
  by_cases hs : (lookupA acc k).isSome
  · rw [if_pos hs]
    have : (acc.map (fun p => if p.1 = k then (p.1, p.2 + 1) else p)).map Prod.fst
        = acc.map Prod.fst := by
      rw [List.map_map]
      apply List.map_congr_left
      intro p _
      by_cases hpk : p.1 = k <;> simp [hpk]
    rw [this]; exact h
  · rw [if_neg hs]
    have hk : k ∉ acc.map Prod.fst :=
      (lookupA_eq_none_iff acc k).mp (Option.not_isSome_iff_eq_none.mp hs)
    rw [List.map_append]
    simp only [List.map_cons, List.map_nil]
    rw [List.nodup_append]
    refine ⟨h, List.nodup_singleton k, ?_⟩
    intro a ha hak
    have : a = k := by simpa using hak
    subst this
    exact hk ha

lemma foldl_dfInsert_one_le (ks : List String) (acc : List (String × ℕ))
    (h : ∀ p ∈ acc, 1 ≤ p.2) : ∀ p ∈ ks.foldl dfInsert acc, 1 ≤ p.2 := by
  induction ks generalizing acc with
  | nil => simpa using h
  | cons a t ih => exact ih _ (dfInsert_one_le acc a h)

lemma foldl_dfInsert_keys_nodup (ks : List String) (acc : List (String × ℕ))
    (h : (acc.map Prod.fst).Nodup) : ((ks.foldl dfInsert acc).map Prod.fst).Nodup := by
  induction ks generalizing acc with
  | nil => simpa using h
  | cons a t ih => exact ih _ (dfInsert_keys_nodup acc a h)

lemma lookupA_of_mem_of_nodupkeys {α β : Type} [DecidableEq α] (l : List (α × β))
    (p : α × β) : (l.map Prod.fst).Nodup → p ∈ l → lookupA l p.1 = some p.2 := by
  induction l with
  | nil => intro _ hp; cases hp
  | cons q t ih =>
      intro h hp
      rcases List.mem_cons.mp hp with hp | hp
      · subst hp
        simp [lookupA_cons]
      · have hq : q.1 ∉ t.map Prod.fst := (List.nodup_cons.mp h).1
        have hne : ¬ q.1 = p.1 := by
          intro he
          exact hq (he ▸ List.mem_map.mpr ⟨p, hp, rfl⟩)
        rw [lookupA_cons, if_neg hne]
        exact ih (List.nodup_cons.mp h).2 hp

lemma dfCounts_le_length (micros : List Microcluster)
    (hnd : ∀ m ∈ micros, (m.tf.map Prod.fst).Nodup) (k : String) :
    (lookupA (dfCounts micros) k).getD 0 ≤ micros.length := by
  suffices h : ∀ acc : List (String × ℕ),
      (lookupA (micros.foldl (fun acc m => (m.tf.map Prod.fst).foldl dfInsert acc) acc) k).getD 0
        ≤ (lookupA acc k).getD 0 + micros.length by
    simpa [dfCounts, lookupA_nil] using h []
  induction micros with
  | nil => simp
  | cons m t ih =>
      intro acc
      have hstep := valD_foldl_dfInsert (m.tf.map Prod.fst)
        (hnd m (List.mem_cons_self m t)) acc k
      have iht := ih (fun m' hm' => hnd m' (List.mem_cons_of_mem m hm'))
        ((m.tf.map Prod.fst).foldl dfInsert acc)
      rw [List.foldl_cons]
      calc (lookupA (t.foldl (fun acc m => (m.tf.map Prod.fst).foldl dfInsert acc)
              ((m.tf.map Prod.fst).foldl dfInsert acc)) k).getD 0
          ≤ (lookupA ((m.tf.map Prod.fst).foldl dfInsert acc) k).getD 0 + t.length := iht
        _ ≤ (lookupA acc k).getD 0 + (m :: t).length := by
            rw [hstep]
            by_cases hk : k ∈ m.tf.map Prod.fst <;> simp [hk, List.length_cons] <;> omega

lemma dfCounts_mem_bounds (micros : List Microcluster)
    (hnd : ∀ m ∈ micros, (m.tf.map Prod.fst).Nodup) :
    ∀ p ∈ dfCounts micros, 1 ≤ p.2 ∧ p.2 ≤ micros.length := by
  intro p hp
  have hgen1 : ∀ (ms : List Microcluster) (acc : List (String × ℕ)), (∀ q ∈ acc, 1 ≤ q.2) →
      ∀ q ∈ ms.foldl (fun acc m => (m.tf.map Prod.fst).foldl dfInsert acc) acc, 1 ≤ q.2 := by
    intro ms
    induction ms with
    | nil => intro acc hacc q hq; exact hacc q (by simpa using hq)
    | cons m t ih =>
        intro acc hacc q hq
        rw [List.foldl_cons] at hq
        exact ih _ (foldl_dfInsert_one_le _ _ hacc) q hq
  have h1 : 1 ≤ p.2 := hgen1 micros [] (by simp) p hp
  have hgen2 : ∀ (ms : List Microcluster) (acc : List (String × ℕ)),
      (acc.map Prod.fst).Nodup →
      ((ms.foldl (fun acc m => (m.tf.map Prod.fst).foldl dfInsert acc) acc).map
        Prod.fst).Nodup := by
    intro ms
    induction ms with
    | nil => intro acc hacc; simpa using hacc
    | cons m t ih =>
        intro acc hacc
        rw [List.foldl_cons]
        exact ih _ (foldl_dfInsert_keys_nodup _ _ hacc)
  have hkeys : ((dfCounts micros).map Prod.fst).Nodup := hgen2 micros [] (by simp)
  have hlook : lookupA (dfCounts micros) p.1 = some p.2 :=
    lookupA_of_mem_of_nodupkeys _ p hkeys hp
  have h2 := dfCounts_le_length micros hnd p.1
  rw [hlook] at h2
  exact ⟨h1, by simpa using h2⟩

/-- C10.  Over a non-empty live cluster set (each cluster's term dict having
distinct keys, as Python dicts do), every value of the IDF table is at least
1: the document frequency of a term is between 1 and the cluster count, so
`1 + ln(count/df) ≥ 1`.  Consequently multiplying a nonzero term frequency
by its IDF weight never zeroes it and never reverses its sign. -/
theorem C10_idf_ge_one (micros : List Microcluster) (hne : micros ≠ [])
    (hnd : ∀ m ∈ micros, (m.tf.map Prod.fst).Nodup) :
    (∀ p ∈ calculateIDF micros, 1 ≤ p.2) ∧
    (∀ p ∈ calculateIDF micros, ∀ tfv : ℝ, tfv ≠ 0 → tfv * p.2 ≠ 0) ∧
    (∀ p ∈ calculateIDF micros, ∀ tfv : ℝ, 0 < tfv → 0 < tfv * p.2) := by
  have hmain : ∀ p ∈ calculateIDF micros, 1 ≤ p.2 := by
    intro p hp
    obtain ⟨q, hq, rfl⟩ := List.mem_map.mp hp
    obtain ⟨h1, h2⟩ := dfCounts_mem_bounds micros hnd q hq
    have hq0 : (0 : ℝ) < (q.2 : ℝ) := by exact_mod_cast h1
    have hdiv : 1 ≤ (micros.length : ℝ) / (q.2 : ℝ) := by
      rw [le_div_iff₀ hq0]
      have : (q.2 : ℝ) ≤ (micros.length : ℝ) := by exact_mod_cast h2
      linarith
    have hlog : 0 ≤ Real.log ((micros.length : ℝ) / (q.2 : ℝ)) := Real.log_nonneg hdiv
    simpa using by linarith
  refine ⟨hmain, ?_, ?_⟩
  · intro p hp tfv htf
    have h1 := hmain p hp
    have : p.2 ≠ 0 := by linarith
    exact mul_ne_zero htf this
  · intro p hp tfv htf
    have h1 := hmain p hp
    exact mul_pos htf (by linarith)

/-- C10, witness: a single live cluster containing the term `"a"`. -/
theorem C10_idf_ge_one_witness :
    (∀ p ∈ calculateIDF [mkMicrocluster [("a", ⟨1, [none]⟩)] 0 1 none none (some 0)],
        1 ≤ p.2) ∧
    (∀ p ∈ calculateIDF [mkMicrocluster [("a", ⟨1, [none]⟩)] 0 1 none none (some 0)],
        ∀ tfv : ℝ, tfv ≠ 0 → tfv * p.2 ≠ 0) ∧
    (∀ p ∈ calculateIDF [mkMicrocluster [("a", ⟨1, [none]⟩)] 0 1 none none (some 0)],
        ∀ tfv : ℝ, 0 < tfv → 0 < tfv * p.2) :=
  C10_idf_ge_one [mkMicrocluster [("a", ⟨1, [none]⟩)] 0 1 none none (some 0)]
    (by simp)
    (by intro m hm; simp at hm; subst hm; simp [mkMicrocluster])

/-! ### Distance metric (`textclust.distances.tfidf_cosine_distance`) -/

/-- The ephemeral IDF table passed to the distance function. -/
abbrev Idf := List (String × ℝ)

/-- Python `idf[k]` on the second cluster's terms.  In every call site of the
program the second cluster is live, so its terms are in the table; a missing
key (which would raise `KeyError` in Python) is modelled as weight 0. -/
noncomputable def idfD (idf : Idf) (k : String) : ℝ := (lookupA idf k).getD 0

/-- The `sum` accumulator of `tfidf_cosine_distance`: over the first
cluster's terms, guarded by `if k in idf` and `if k in microcluster.tf`,
accumulate `(mc.tf[k]["tf"] * idf[k]) * (microcluster.tf[k]["tf"] * idf[k])`.
(The source computes `sum` and `tfidflen` in one loop; they are split into
two folds here, which accumulates the same values.) -/
noncomputable def dotSum (mc micro : Microcluster) (idf : Idf) : ℝ :=
  mc.tf.foldl (fun s p =>
    match lookupA idf p.1 with
    | none => s
    | some iv =>
      match lookupA micro.tf p.1 with
      | none => s
      | some e => s + (p.2.tf * iv) * (e.tf * iv)) 0

/-- The `tfidflen` accumulator (before the square root): over the first
cluster's terms with `k in idf`, accumulate `tf*idf*tf*idf`. -/
noncomputable def tfidfSq (mc : Microcluster) (idf : Idf) : ℝ :=
  mc.tf.foldl (fun s p =>
    match lookupA idf p.1 with
    | none => s
    | some iv => s + p.2.tf * iv * p.2.tf * iv) 0

/-- The `microtfidflen` accumulator (before the square root): over the
second cluster's terms, `tf * idf[k] * tf * idf[k]` with an unguarded table
access. -/
noncomputable def microTfidfSq (micro : Microcluster) (idf : Idf) : ℝ :=
  micro.tf.foldl (fun s p => s + p.2.tf * idfD idf p.1 * p.2.tf * idfD idf p.1) 0

/-- Python `round(x, 10)`, modelled with rounding half away from zero at the
midpoint (Python rounds the nearest binary double half to even; the two
agree except on exact midpoints). -/
noncomputable def round10 (x : ℝ) : ℝ := ((round (x * 10 ^ 10) : ℤ) : ℝ) / 10 ^ 10

/-- `distances.tfidf_cosine_distance(mc, microcluster, idf)`. -/
noncomputable def tfidf_cosine_distance (mc micro : Microcluster) (idf : Idf) : ℝ :=
  let sum := dotSum mc micro idf
  let tfidflen := Real.sqrt (tfidfSq mc idf)
  let microtfidflen := Real.sqrt (microTfidfSq micro idf)
  if tfidflen = 0 ∨ microtfidflen = 0 then 1
  else round10 (1 - sum / (tfidflen * microtfidflen))

/-- The term-frequency of term `k` in cluster `m` (0 when absent). -/
noncomputable def tfval (m : Microcluster) (k : String) : ℝ :=
  match lookupA m.tf k with
  | some e => e.tf
  | none => 0

/-- The tf-idf vector coordinate of cluster `m` at term `k`. -/
noncomputable def wval (m : Microcluster) (idf : Idf) (k : String) : ℝ :=
  tfval m k * idfD idf k

/-- The key set of a term dict. -/
def keysF (l : TermMap) : Finset String := (l.map Prod.fst).toFinset

lemma foldl_step_eq_sum (l : List (String × TermEntry)) (g : ℝ → (String × TermEntry) → ℝ)
    (f : (String × TermEntry) → ℝ) (hg : ∀ s p, g s p = s + f p) (a : ℝ) :
    l.foldl g a = a + (l.map f).sum := by
  induction l generalizing a with
  | nil => simp
  | cons p t ih =>
      rw [List.foldl_cons, hg, ih]
      simp [add_assoc]

lemma sum_map_eq_sum_keysF (l : TermMap) (hnd : (l.map Prod.fst).Nodup)
    (f : (String × TermEntry) → ℝ) :
    (l.map f).sum = ∑ k ∈ (l.map Prod.fst).toFinset,
      (match lookupA l k with
       | some e => f (k, e)
       | none => 0) := by
  induction l with
  | nil => simp
  | cons p t ih =>
      have hpt : p.1 ∉ t.map Prod.fst := (List.nodup_cons.mp (by simpa using hnd)).1
      have hnd' : (t.map Prod.fst).Nodup := (List.nodup_cons.mp (by simpa using hnd)).2
      have hins : ((p :: t).map Prod.fst).toFinset
          = insert p.1 (t.map Prod.fst).toFinset := by
        simp
      rw [List.map_cons, List.sum_cons, hins, Finset.sum_insert (by simpa using hpt), ih hnd']
      have h1 : (match lookupA (p :: t) p.1 with
          | some e => f (p.1, e)
          | none => 0) = f p := by
        rw [lookupA_cons, if_pos rfl]
      have h2 : ∀ k ∈ (t.map Prod.fst).toFinset,
          (match lookupA t k with
           | some e => f (k, e)
           | none => 0)
          = (match lookupA (p :: t) k with
             | some e => f (k, e)
             | none => 0) := by
        intro k hk
        have hkmem : k ∈ t.map Prod.fst := List.mem_toFinset.mp hk
        have hkp : ¬ p.1 = k := by
          intro he
          exact hpt (he ▸ hkmem)
        rw [lookupA_cons, if_neg hkp]
      rw [h1, Finset.sum_congr rfl h2]

lemma lookupA_mem {α β : Type} [DecidableEq α] (l : List (α × β)) (k : α) (v : β)
    (h : lookupA l k = some v) : (k, v) ∈ l := by
  induction l with
  | nil => simp [lookupA] at h
  | cons p t ih =>
      rw [lookupA_cons] at h
      by_cases hpk : p.1 = k
      · rw [if_pos hpk] at h
        have hv : p.2 = v := by injection h
        subst hpk
        subst hv
        have hmem : (p.1, p.2) ∈ p :: t := by
          rw [Prod.mk.eta]
          exact List.mem_cons_self p t
        exact hmem
      · rw [if_neg hpk] at h
        exact List.mem_cons_of_mem _ (ih h)

lemma tfval_eq_zero_of_not_mem (m : Microcluster) (k : String)
    (h : k ∉ keysF m.tf) : tfval m k = 0 := by
  have : lookupA m.tf k = none := by
    rw [lookupA_eq_none_iff]
    simpa [keysF] using h
  simp [tfval, this]

lemma wval_eq_zero_of_not_mem (m : Microcluster) (idf : Idf) (k : String)
    (h : k ∉ keysF m.tf) : wval m idf k = 0 := by
  simp [wval, tfval_eq_zero_of_not_mem m k h]

lemma dotSum_eq (mc micro : Microcluster) (idf : Idf)
    (hnd : (mc.tf.map Prod.fst).Nodup) :
    dotSum mc micro idf = ∑ k ∈ keysF mc.tf, wval mc idf k * wval micro idf k := by
  unfold dotSum
  rw [foldl_step_eq_sum _ _ (fun p =>
      match lookupA idf p.1 with
      | none => 0
      | some iv =>
        match lookupA micro.tf p.1 with
        | none => 0
        | some e => (p.2.tf * iv) * (e.tf * iv))
    (by
      intro s p
      cases h1 : lookupA idf p.1 with
      | none => simp [h1]
      | some iv =>
          cases h2 : lookupA micro.tf p.1 with
          | none => simp [h1, h2]
          | some e => simp [h1, h2])]
  rw [zero_add, sum_map_eq_sum_keysF _ hnd]
  apply Finset.sum_congr rfl
  intro k hk
  have hks : ∃ e, lookupA mc.tf k = some e := by
    cases h : lookupA mc.tf k with
    | some e => exact ⟨e, rfl⟩
    | none =>
        exact absurd (by simpa [keysF] using hk)
          (by simpa [keysF] using (lookupA_eq_none_iff mc.tf k).mp h)
  obtain ⟨e, he⟩ := hks
  rw [he]
  have htv : tfval mc k = e.tf := by simp [tfval, he]
  cases h1 : lookupA idf k with
  | none => simp [wval, idfD, h1]
  | some iv =>
      cases h2 : lookupA micro.tf k with
      | none => simp [wval, tfval, h2, idfD, h1]
      | some e2 => simp [wval, tfval, he, h2, idfD, h1]

lemma tfidfSq_eq (mc : Microcluster) (idf : Idf)
    (hnd : (mc.tf.map Prod.fst).Nodup) :
    tfidfSq mc idf = ∑ k ∈ keysF mc.tf, wval mc idf k * wval mc idf k := by
  unfold tfidfSq
  rw [foldl_step_eq_sum _ _ (fun p =>
      match lookupA idf p.1 with
      | none => 0
      | some iv => p.2.tf * iv * p.2.tf * iv)
    (by
      intro s p
      cases h1 : lookupA idf p.1 with
      | none => simp [h1]
      | some iv => simp [h1])]
  rw [zero_add, sum_map_eq_sum_keysF _ hnd]
  apply Finset.sum_congr rfl
  intro k hk
  have hks : ∃ e, lookupA mc.tf k = some e := by
    cases h : lookupA mc.tf k with
    | some e => exact ⟨e, rfl⟩
    | none =>
        exact absurd (by simpa [keysF] using hk)
          (by simpa [keysF] using (lookupA_eq_none_iff mc.tf k).mp h)
  obtain ⟨e, he⟩ := hks
  rw [he]
  cases h1 : lookupA idf k with
  | none => simp [wval, idfD, h1]
  | some iv =>
      simp only [wval, tfval, idfD, he, h1, Option.getD_some]
      ring

lemma microTfidfSq_eq (micro : Microcluster) (idf : Idf)
    (hnd : (micro.tf.map Prod.fst).Nodup) :
    microTfidfSq micro idf = ∑ k ∈ keysF micro.tf, wval micro idf k * wval micro idf k := by
  unfold microTfidfSq
  rw [foldl_step_eq_sum _ _ (fun p => p.2.tf * idfD idf p.1 * p.2.tf * idfD idf p.1)
    (by intro s p; ring)]
  rw [zero_add, sum_map_eq_sum_keysF _ hnd]
  apply Finset.sum_congr rfl
  intro k hk
  have hks : ∃ e, lookupA micro.tf k = some e := by
    cases h : lookupA micro.tf k with
    | some e => exact ⟨e, rfl⟩
    | none =>
        exact absurd (by simpa [keysF] using hk)
          (by simpa [keysF] using (lookupA_eq_none_iff micro.tf k).mp h)
  obtain ⟨e, he⟩ := hks
  rw [he]
  simp only [wval, tfval, he]
  ring

lemma sum_wval_extend (a b : Microcluster) (idf : Idf)
    (F : String → ℝ) (hF : ∀ k, k ∉ keysF a.tf → F k = 0) :
    ∑ k ∈ keysF a.tf, F k = ∑ k ∈ keysF a.tf ∪ keysF b.tf, F k := by
  apply Finset.sum_subset (Finset.subset_union_left)
  intro k _ hk
  exact hF k hk

lemma tfidf_cosine_distance_def (mc micro : Microcluster) (idf : Idf) :
    tfidf_cosine_distance mc micro idf =
      if Real.sqrt (tfidfSq mc idf) = 0 ∨ Real.sqrt (microTfidfSq micro idf) = 0 then 1
      else round10 (1 - dotSum mc micro idf /
        (Real.sqrt (tfidfSq mc idf) * Real.sqrt (microTfidfSq micro idf))) := rfl

lemma round_mono {x y : ℝ} (h : x ≤ y) : round x ≤ round y := by
  rw [round_eq, round_eq]
  exact Int.floor_mono (by linarith)

lemma round10_nonneg {x : ℝ} (hx : 0 ≤ x) : 0 ≤ round10 x := by
  unfold round10
  apply div_nonneg _ (by norm_num)
  have h1 : round (0 : ℝ) ≤ round (x * 10 ^ 10) := round_mono (by positivity)
  rw [round_zero] at h1
  exact_mod_cast h1

lemma round10_le_one {x : ℝ} (hx : x ≤ 1) : round10 x ≤ 1 := by
  unfold round10
  rw [div_le_one (by norm_num)]
  have h1 : round (x * 10 ^ 10) ≤ round ((10 ^ 10 : ℝ)) := by
    apply round_mono
    calc x * 10 ^ 10 ≤ 1 * 10 ^ 10 := by
          apply mul_le_mul_of_nonneg_right hx
          norm_num
      _ = 10 ^ 10 := one_mul _
  have h2 : round ((10 ^ 10 : ℝ)) = ((10 ^ 10 : ℕ) : ℤ) := by
    rw [show ((10 : ℝ) ^ 10) = (((10 ^ 10 : ℕ) : ℝ)) by norm_num]
    exact round_natCast _
  rw [h2] at h1
  calc ((round (x * 10 ^ 10) : ℤ) : ℝ) ≤ (((10 ^ 10 : ℕ) : ℤ) : ℝ) := by exact_mod_cast h1
    _ = 10 ^ 10 := by norm_num

lemma round10_zero : round10 0 = 0 := by
  unfold round10
  rw [zero_mul, round_zero]
  norm_num

lemma tfidfSq_eq_microTfidfSq (m : Microcluster) (idf : Idf)
    (hnd : (m.tf.map Prod.fst).Nodup) : tfidfSq m idf = microTfidfSq m idf := by
  rw [tfidfSq_eq m idf hnd, microTfidfSq_eq m idf hnd]

lemma tfval_nonneg (m : Microcluster) (k : String) (htf : ∀ p ∈ m.tf, 0 ≤ p.2.tf) :
    0 ≤ tfval m k := by
  unfold tfval
  cases h : lookupA m.tf k with
  | none => simp
  | some e => exact htf (k, e) (lookupA_mem m.tf k e h)

lemma idfD_nonneg (idf : Idf) (k : String) (hidf : ∀ p ∈ idf, 0 ≤ p.2) :
    0 ≤ idfD idf k := by
  unfold idfD
  cases h : lookupA idf k with
  | none => simp
  | some v => simpa using hidf (k, v) (lookupA_mem idf k v h)

lemma wval_nonneg (m : Microcluster) (idf : Idf) (k : String)
    (htf : ∀ p ∈ m.tf, 0 ≤ p.2.tf) (hidf : ∀ p ∈ idf, 0 ≤ p.2) :
    0 ≤ wval m idf k :=
  mul_nonneg (tfval_nonneg m k htf) (idfD_nonneg idf k hidf)

lemma dotSum_comm (a b : Microcluster) (idf : Idf)
    (hnda : (a.tf.map Prod.fst).Nodup) (hndb : (b.tf.map Prod.fst).Nodup) :
    dotSum a b idf = dotSum b a idf := by
  rw [dotSum_eq a b idf hnda, dotSum_eq b a idf hndb]
  rw [sum_wval_extend a b idf _ (fun k hk => by rw [wval_eq_zero_of_not_mem a idf k hk, zero_mul])]
  rw [sum_wval_extend b a idf _ (fun k hk => by rw [wval_eq_zero_of_not_mem b idf k hk, zero_mul])]
  rw [Finset.union_comm]
  exact Finset.sum_congr rfl (fun k _ => mul_comm _ _)

lemma tfidfSq_nonneg (a : Microcluster) (idf : Idf) (hnd : (a.tf.map Prod.fst).Nodup) :
    0 ≤ tfidfSq a idf := by
  rw [tfidfSq_eq a idf hnd]
  exact Finset.sum_nonneg (fun k _ => mul_self_nonneg _)

lemma microTfidfSq_nonneg (b : Microcluster) (idf : Idf) (hnd : (b.tf.map Prod.fst).Nodup) :
    0 ≤ microTfidfSq b idf := by
  rw [microTfidfSq_eq b idf hnd]
  exact Finset.sum_nonneg (fun k _ => mul_self_nonneg _)

/-- The Cauchy-Schwarz step of the distance-bound proof: the guarded dot
product is at most the product of the two norms. -/
lemma dotSum_le_sqrt_mul_sqrt (a b : Microcluster) (idf : Idf)
    (hnda : (a.tf.map Prod.fst).Nodup) (hndb : (b.tf.map Prod.fst).Nodup)
    (htfa : ∀ p ∈ a.tf, 0 ≤ p.2.tf) (htfb : ∀ p ∈ b.tf, 0 ≤ p.2.tf)
    (hidf : ∀ p ∈ idf, 0 ≤ p.2) :
    dotSum a b idf ≤ Real.sqrt (tfidfSq a idf) * Real.sqrt (microTfidfSq b idf) := by
  have hwa : ∀ k, 0 ≤ wval a idf k := fun k => wval_nonneg a idf k htfa hidf
  have hwb : ∀ k, 0 ≤ wval b idf k := fun k => wval_nonneg b idf k htfb hidf
  have hS : 0 ≤ dotSum a b idf := by
    rw [dotSum_eq a b idf hnda]
    exact Finset.sum_nonneg (fun k _ => mul_nonneg (hwa k) (hwb k))
  have hcs : (dotSum a b idf) ^ 2 ≤ tfidfSq a idf * microTfidfSq b idf := by
    rw [dotSum_eq a b idf hnda]
    calc (∑ k ∈ keysF a.tf, wval a idf k * wval b idf k) ^ 2
        ≤ (∑ k ∈ keysF a.tf, wval a idf k ^ 2) * ∑ k ∈ keysF a.tf, wval b idf k ^ 2 :=
          Finset.sum_mul_sq_le_sq_mul_sq _ _ _
      _ ≤ (∑ k ∈ keysF a.tf, wval a idf k ^ 2) * ∑ k ∈ keysF b.tf, wval b idf k ^ 2 := by
          apply mul_le_mul_of_nonneg_left _ (Finset.sum_nonneg (fun k _ => sq_nonneg _))
          calc (∑ k ∈ keysF a.tf, wval b idf k ^ 2)
              ≤ ∑ k ∈ keysF a.tf ∪ keysF b.tf, wval b idf k ^ 2 :=
                Finset.sum_le_sum_of_subset_of_nonneg Finset.subset_union_left
                  (fun k _ _ => sq_nonneg _)
            _ = ∑ k ∈ keysF b.tf, wval b idf k ^ 2 := by
                rw [Finset.union_comm]
                exact (sum_wval_extend b a idf _
                  (fun k hk => by rw [wval_eq_zero_of_not_mem b idf k hk]; ring)).symm
      _ = tfidfSq a idf * microTfidfSq b idf := by
          rw [tfidfSq_eq a idf hnda, microTfidfSq_eq b idf hndb]
          congr 1
          · exact Finset.sum_congr rfl (fun k _ => by rw [sq])
          · exact Finset.sum_congr rfl (fun k _ => by rw [sq])
  have hqa : 0 ≤ tfidfSq a idf := tfidfSq_nonneg a idf hnda
  have hqb : 0 ≤ microTfidfSq b idf := microTfidfSq_nonneg b idf hndb
  calc dotSum a b idf = Real.sqrt ((dotSum a b idf) ^ 2) := (Real.sqrt_sq hS).symm
    _ ≤ Real.sqrt (tfidfSq a idf * microTfidfSq b idf) := Real.sqrt_le_sqrt hcs
    _ = Real.sqrt (tfidfSq a idf) * Real.sqrt (microTfidfSq b idf) := Real.sqrt_mul hqa _

/-- C3.  Properties of the tf-idf cosine distance, for term dicts with
distinct keys, non-negative term frequencies and non-negative IDF weights:
a zero norm on either side gives distance exactly 1; otherwise the distance
is `1 - cosineSimilarity` rounded to 10 decimal digits; the distance is
symmetric; it lies in `[0, 1]`; and the self-distance of a vector whose
terms all carry positive idf weight and which has a nonzero entry is 0. -/
theorem C3_distance_props (a b : Microcluster) (idf : Idf)
    (hnda : (a.tf.map Prod.fst).Nodup) (hndb : (b.tf.map Prod.fst).Nodup)
    (htfa : ∀ p ∈ a.tf, 0 ≤ p.2.tf) (htfb : ∀ p ∈ b.tf, 0 ≤ p.2.tf)
    (hidf : ∀ p ∈ idf, 0 ≤ p.2) :
    (Real.sqrt (tfidfSq a idf) = 0 ∨ Real.sqrt (microTfidfSq b idf) = 0 →
        tfidf_cosine_distance a b idf = 1) ∧
    (¬ (Real.sqrt (tfidfSq a idf) = 0 ∨ Real.sqrt (microTfidfSq b idf) = 0) →
        tfidf_cosine_distance a b idf =
          round10 (1 - dotSum a b idf /
            (Real.sqrt (tfidfSq a idf) * Real.sqrt (microTfidfSq b idf)))) ∧
    tfidf_cosine_distance a b idf = tfidf_cosine_distance b a idf ∧
    (0 ≤ tfidf_cosine_distance a b idf ∧ tfidf_cosine_distance a b idf ≤ 1) ∧
    ((∀ p ∈ a.tf, 0 < idfD idf p.1) → (∃ p ∈ a.tf, p.2.tf ≠ 0) →
        tfidf_cosine_distance a a idf = 0) := by
  refine ⟨?_, ?_, ?_, ?_, ?_⟩
  · intro h
    rw [tfidf_cosine_distance_def, if_pos h]
  · intro h
    rw [tfidf_cosine_distance_def, if_neg h]
  · rw [tfidf_cosine_distance_def, tfidf_cosine_distance_def,
      tfidfSq_eq_microTfidfSq a idf hnda, tfidfSq_eq_microTfidfSq b idf hndb,
      dotSum_comm a b idf hnda hndb]
    by_cases h : Real.sqrt (microTfidfSq a idf) = 0 ∨ Real.sqrt (microTfidfSq b idf) = 0
    · rw [if_pos h, if_pos h.symm]
    · rw [if_neg h, if_neg (fun hc => h hc.symm)]
      rw [mul_comm]
  · by_cases h : Real.sqrt (tfidfSq a idf) = 0 ∨ Real.sqrt (microTfidfSq b idf) = 0
    · rw [tfidf_cosine_distance_def, if_pos h]
      norm_num
    · rw [tfidf_cosine_distance_def, if_neg h]
      push_neg at h
      have hqa : 0 ≤ tfidfSq a idf := tfidfSq_nonneg a idf hnda
      have hqb : 0 ≤ microTfidfSq b idf := microTfidfSq_nonneg b idf hndb
      have hsa : 0 < Real.sqrt (tfidfSq a idf) :=
        lt_of_le_of_ne (Real.sqrt_nonneg _) (Ne.symm h.1)
      have hsb : 0 < Real.sqrt (microTfidfSq b idf) :=
        lt_of_le_of_ne (Real.sqrt_nonneg _) (Ne.symm h.2)
      have hden : 0 < Real.sqrt (tfidfSq a idf) * Real.sqrt (microTfidfSq b idf) :=
        mul_pos hsa hsb
      have hS : 0 ≤ dotSum a b idf := by
        rw [dotSum_eq a b idf hnda]
        exact Finset.sum_nonneg (fun k _ => mul_nonneg
          (wval_nonneg a idf k htfa hidf) (wval_nonneg b idf k htfb hidf))
      have hfrac1 : dotSum a b idf /
          (Real.sqrt (tfidfSq a idf) * Real.sqrt (microTfidfSq b idf)) ≤ 1 := by
        rw [div_le_one hden]
        exact dotSum_le_sqrt_mul_sqrt a b idf hnda hndb htfa htfb hidf
      have hfrac0 : 0 ≤ dotSum a b idf /
          (Real.sqrt (tfidfSq a idf) * Real.sqrt (microTfidfSq b idf)) :=
        div_nonneg hS hden.le
      exact ⟨round10_nonneg (by linarith), round10_le_one (by linarith)⟩
  · intro hpos hex
    obtain ⟨p, hp, hptf⟩ := hex
    have hqa : 0 < tfidfSq a idf := by
      rw [tfidfSq_eq a idf hnda]
      apply Finset.sum_pos' (fun k _ => mul_self_nonneg _)
      refine ⟨p.1, by simp [keysF]; exact ⟨p.2, hp⟩, ?_⟩
      have htv : tfval a p.1 = p.2.tf := by
        unfold tfval
        rw [lookupA_of_mem_of_nodupkeys a.tf p hnda hp]
      have hwne : wval a idf p.1 ≠ 0 := by
        unfold wval
        rw [htv]
        exact mul_ne_zero hptf (ne_of_gt (hpos p hp))
      exact mul_self_pos.mpr hwne
    have hmq : microTfidfSq a idf = tfidfSq a idf :=
      (tfidfSq_eq_microTfidfSq a idf hnda).symm
    have hsq : Real.sqrt (tfidfSq a idf) ≠ 0 :=
      ne_of_gt (Real.sqrt_pos.mpr hqa)
    rw [tfidf_cosine_distance_def, hmq, if_neg (by
      push_neg
      exact ⟨hsq, hsq⟩)]
    have hdot : dotSum a a idf = tfidfSq a idf := by
      rw [dotSum_eq a a idf hnda, tfidfSq_eq a idf hnda]
    rw [hdot, Real.mul_self_sqrt hqa.le, div_self (ne_of_gt hqa)]
    rw [sub_self, round10_zero]

/-- C3, witness: the distinguished-key, non-negativity and positivity
hypotheses hold for the vectors `[("x", 2)]`, `[("y", 3)]` and table
`[("x", 1), ("y", 1)]`. -/
theorem C3_distance_props_witness :
    (Real.sqrt (tfidfSq (mkMicrocluster [("x", ⟨2, [none]⟩)] 0 1 none none none) [("x", 1), ("y", 1)]) = 0 ∨
     Real.sqrt (microTfidfSq (mkMicrocluster [("y", ⟨3, [none]⟩)] 0 1 none none none) [("x", 1), ("y", 1)]) = 0 →
        tfidf_cosine_distance (mkMicrocluster [("x", ⟨2, [none]⟩)] 0 1 none none none)
          (mkMicrocluster [("y", ⟨3, [none]⟩)] 0 1 none none none) [("x", 1), ("y", 1)] = 1) ∧
    (¬ (Real.sqrt (tfidfSq (mkMicrocluster [("x", ⟨2, [none]⟩)] 0 1 none none none) [("x", 1), ("y", 1)]) = 0 ∨
        Real.sqrt (microTfidfSq (mkMicrocluster [("y", ⟨3, [none]⟩)] 0 1 none none none) [("x", 1), ("y", 1)]) = 0) →
        tfidf_cosine_distance (mkMicrocluster [("x", ⟨2, [none]⟩)] 0 1 none none none)
            (mkMicrocluster [("y", ⟨3, [none]⟩)] 0 1 none none none) [("x", 1), ("y", 1)] =
          round10 (1 - dotSum (mkMicrocluster [("x", ⟨2, [none]⟩)] 0 1 none none none)
              (mkMicrocluster [("y", ⟨3, [none]⟩)] 0 1 none none none) [("x", 1), ("y", 1)] /
            (Real.sqrt (tfidfSq (mkMicrocluster [("x", ⟨2, [none]⟩)] 0 1 none none none) [("x", 1), ("y", 1)]) *
             Real.sqrt (microTfidfSq (mkMicrocluster [("y", ⟨3, [none]⟩)] 0 1 none none none) [("x", 1), ("y", 1)])))) ∧
    tfidf_cosine_distance (mkMicrocluster [("x", ⟨2, [none]⟩)] 0 1 none none none)
        (mkMicrocluster [("y", ⟨3, [none]⟩)] 0 1 none none none) [("x", 1), ("y", 1)] =
      tfidf_cosine_distance (mkMicrocluster [("y", ⟨3, [none]⟩)] 0 1 none none none)
        (mkMicrocluster [("x", ⟨2, [none]⟩)] 0 1 none none none) [("x", 1), ("y", 1)] ∧
    (0 ≤ tfidf_cosine_distance (mkMicrocluster [("x", ⟨2, [none]⟩)] 0 1 none none none)
        (mkMicrocluster [("y", ⟨3, [none]⟩)] 0 1 none none none) [("x", 1), ("y", 1)] ∧
     tfidf_cosine_distance (mkMicrocluster [("x", ⟨2, [none]⟩)] 0 1 none none none)
        (mkMicrocluster [("y", ⟨3, [none]⟩)] 0 1 none none none) [("x", 1), ("y", 1)] ≤ 1) ∧
    ((∀ p ∈ (mkMicrocluster [("x", ⟨2, [none]⟩)] 0 1 none none none).tf, 0 < idfD [("x", 1), ("y", 1)] p.1) →
     (∃ p ∈ (mkMicrocluster [("x", ⟨2, [none]⟩)] 0 1 none none none).tf, p.2.tf ≠ 0) →
        tfidf_cosine_distance (mkMicrocluster [("x", ⟨2, [none]⟩)] 0 1 none none none)
          (mkMicrocluster [("x", ⟨2, [none]⟩)] 0 1 none none none) [("x", 1), ("y", 1)] = 0) :=
  C3_distance_props (mkMicrocluster [("x", ⟨2, [none]⟩)] 0 1 none none none)
    (mkMicrocluster [("y", ⟨3, [none]⟩)] 0 1 none none none) [("x", 1), ("y", 1)]
    (by simp [mkMicrocluster])
    (by simp [mkMicrocluster])
    (by intro p hp; simp [mkMicrocluster] at hp; simp [hp])
    (by intro p hp; simp [mkMicrocluster] at hp; simp [hp])
    (by intro p hp; simp at hp; rcases hp with h | h <;> simp [h])

/-! ### The engine state (`textclust.__init__` instance fields) and its
operations.  The state functions are parameterized by the resolved micro
distance function `d` (for the one implemented metric this is
`tfidf_cosine_distance`; the unresolved string dispatch is modelled
separately below for C9) and, where sklearn's AgglomerativeClustering is
invoked, by an abstract label function `agglom`. -/

open scoped Classical

/-- The resolved distance function used by the state operations. -/
abbrev DistFn := Microcluster → Microcluster → Idf → ℝ

/-- Stand-in for `AgglomerativeClustering(n_clusters=k, linkage="complete",
affinity="precomputed").fit(distanceMatrix).labels_`: given the surviving
clusters (from which the code builds the macro-distance matrix) and the
requested cluster count, produce one label per cluster.  The sklearn call
is external to the repository, so it is kept abstract. -/
abbrev AgglomFn := List (ℕ × Microcluster) → ℕ → List ℕ

/-- The mutable fields of a `textclust` instance. -/
structure TCState where
  radius : ℝ
  lam : ℝ
  tgap : ℝ
  termfading : Bool
  realtimefading : Bool
  num_macro : ℕ
  min_weight : ℝ
  auto_r : Bool
  auto_merge : Bool
  sigma : ℝ
  num_merged_obs : ℕ
  t : ℝ
  lastCleanup : Option ℝ
  n : ℕ
  omega : ℝ
  assignment : List (ℕ × ℕ)
  microclusters : List (ℕ × Microcluster)
  clusterId : ℕ
  microToMacro : Option (List (ℕ × ℕ))
  upToDate : Bool
  realtime : Option ℝ
  dist_mean : ℝ

/-- Python `self.microclusters[key] = f(self.microclusters[key])` at an
existing key. -/
def updateAt {β : Type} (l : List (ℕ × β)) (k : ℕ) (f : β → β) : List (ℕ × β) :=
  l.map (fun p => if p.1 = k then (p.1, f p.2) else p)

/-- `textclust._updateweights`: fade every cluster to the current time,
then delete clusters whose weight is `<= omega` or whose term dict became
empty. -/
noncomputable def updateweightsState (s : TCState) : TCState :=
  let faded := s.microclusters.map
    (fun p => (p.1, p.2.fade s.t s.omega s.lam s.termfading s.realtime))
  { s with microclusters :=
      faded.filter (fun p => if p.2.weight ≤ s.omega ∨ p.2.tf = [] then false else true) }

/-- The loop accumulator of `textclust._get_closest_mc`. -/
structure ClosestAcc where
  minDist : ℝ
  smallestKey : Option ℕ
  sumdist : ℝ
  squaresum : ℝ
  counter : ℕ

/-- One iteration of the `_get_closest_mc` loop body. -/
noncomputable def closestStep (d : DistFn) (mc : Microcluster) (idf : Idf)
    (acc : ClosestAcc) (p : ℕ × Microcluster) : ClosestAcc :=
  let dist := d mc p.2 idf
  let acc1 := { acc with counter := acc.counter + 1, sumdist := acc.sumdist + dist,
                         squaresum := acc.squaresum + dist ^ 2 }
  if dist < acc1.minDist then { acc1 with minDist := dist, smallestKey := some p.1 } else acc1

/-- The `_get_closest_mc` loop over all live clusters, starting from
`min_dist = 1`, `smallest_key = None`, zero sums. -/
noncomputable def closestStats (d : DistFn) (mc : Microcluster) (idf : Idf)
    (micros : List (ℕ × Microcluster)) : ClosestAcc :=
  micros.foldl (closestStep d mc idf) ⟨1, none, 0, 0, 0⟩

/-- `textclust._get_closest_mc`: the threshold decision after the loop.
Fixed mode accepts when `min_dist < radius`; adaptive mode (`auto_r`)
requires more than one live cluster and accepts when `min_dist` is below
`mu - sigma * sqrt(squaresum/(counter-1) - mu^2)` with
`mu = (sumdist - min_dist)/(counter - 1)`. -/
noncomputable def getClosestMc (d : DistFn) (s : TCState) (mc : Microcluster)
    (idf : Idf) : Option ℕ × ℝ :=
  let acc := closestStats d mc idf s.microclusters
  if s.auto_r then
    if 1 < acc.counter then
      let mu := (acc.sumdist - acc.minDist) / ((acc.counter : ℝ) - 1)
      let treshold := mu - s.sigma * Real.sqrt (acc.squaresum / ((acc.counter : ℝ) - 1) - mu ^ 2)
      if acc.minDist < treshold then (acc.smallestKey, acc.minDist) else (none, acc.minDist)
    else (none, acc.minDist)
  else
    if acc.minDist < s.radius then (acc.smallestKey, acc.minDist) else (none, acc.minDist)

/-- The inner `while j < len(...)` sweep of `textclust._mergemicroclusters`
for a fixed row `i`: each later cluster is either merged into the row
cluster (and removed) or kept.  The Python loop mutates the dict and the
parallel key list in lock step; the fold accumulates the row cluster and
the kept clusters in the same order. -/
noncomputable def innerPass (d : DistFn) (idf : Idf) (threshold : ℝ) (s : TCState)
    (c : ℕ × Microcluster) (rest : List (ℕ × Microcluster)) :
    (ℕ × Microcluster) × List (ℕ × Microcluster) :=
  rest.foldl (fun acc q =>
    if d acc.1.2 q.2 idf < threshold then
      ((acc.1.1, acc.1.2.merge q.2 s.t s.omega s.lam s.termfading s.realtime), acc.2)
    else (acc.1, acc.2 ++ [q])) (c, [])

lemma innerPass_length_le (d : DistFn) (idf : Idf) (threshold : ℝ) (s : TCState)
    (rest : List (ℕ × Microcluster)) (c : ℕ × Microcluster) :
    (innerPass d idf threshold s c rest).2.length ≤ rest.length := by
  unfold innerPass
  suffices h : ∀ (l : List (ℕ × Microcluster)) (acc : (ℕ × Microcluster) × List (ℕ × Microcluster)),
      (l.foldl (fun acc q =>
        if d acc.1.2 q.2 idf < threshold then
          ((acc.1.1, acc.1.2.merge q.2 s.t s.omega s.lam s.termfading s.realtime), acc.2)
        else (acc.1, acc.2 ++ [q])) acc).2.length ≤ acc.2.length + l.length by
    simpa using h rest (c, [])
  intro l
  induction l with
  | nil => intro acc; simp
  | cons q t ih =>
      intro acc
      rw [List.foldl_cons]
      by_cases hq : d acc.1.2 q.2 idf < threshold
      · rw [if_pos hq]
        have h := ih ((acc.1.1, acc.1.2.merge q.2 s.t s.omega s.lam s.termfading s.realtime),
          acc.2)
        dsimp only at h
        simp only [List.length_cons]
        omega
      · rw [if_neg hq]
        have h := ih (acc.1, acc.2 ++ [q])
        dsimp only at h
        simp only [List.length_append, List.length_cons, List.length_nil] at h
        simp only [List.length_cons]
        omega

/-- The outer `while i < len(...)` sweep of `_mergemicroclusters`: fix the
next row cluster, absorb every later cluster closer than the threshold,
then continue with the kept remainder. -/
noncomputable def mergePass (d : DistFn) (idf : Idf) (threshold : ℝ) (s : TCState) :
    List (ℕ × Microcluster) → List (ℕ × Microcluster)
  | [] => []
  | c :: rest =>
      let r := innerPass d idf threshold s c rest
      r.1 :: mergePass d idf threshold s r.2
termination_by l => l.length
decreasing_by
  have := innerPass_length_le d idf threshold s rest c
  simp only [List.length_cons]
  omega

/-- `textclust._mergemicroclusters`: threshold is the running mean of
accepted-merge distances in adaptive mode, the fixed radius otherwise. -/
noncomputable def mergemicroclusters (d : DistFn) (s : TCState) : TCState :=
  let idf := calculateIDF (s.microclusters.map Prod.snd)
  let threshold := if s.auto_r then s.dist_mean / ((s.num_merged_obs : ℝ) + 1) else s.radius
  { s with microclusters := mergePass d idf threshold s s.microclusters }

/-- `textclust._cleanup`: record the cleanup time, fade and evict, snapshot
`deltaweight`/`oldweight`, optionally auto-merge, reset the per-cycle
accumulators. -/
noncomputable def cleanup (d : DistFn) (s : TCState) : TCState :=
  let s1 := { s with lastCleanup := some s.t }
  let s2 := updateweightsState s1
  let s3 := { s2 with
                microclusters := s2.microclusters.map (fun p =>
                  (p.1, { p.2 with
                            deltaweight := p.2.weight - p.2.oldweight,
                            oldweight := p.2.weight })) }
  let s4 := if s3.auto_merge then mergemicroclusters d s3 else s3
  { s4 with dist_mean := 0, num_merged_obs := 0 }

/-- `textclust.learn_one(x, time, sample_weight, **kwargs)`.  Returns the
assigned cluster id and the successor state.  On an empty term mapping the
Python code prints "error - nothing to process" and leaves the local
variable `clusterId` unbound, so the trailing `return clusterId` raises
`UnboundLocalError` — modelled as result `none`; the preceding state
mutations (freshness flag, current time, the periodic cleanup and the
observation counter) still happen, exactly as in the source. -/
noncomputable def learn_one (d : DistFn) (s : TCState) (x : List (String × ℝ))
    (time : ℝ) (idkw : Option ℤ) : Option ℕ × TCState :=
  let id : Option ℤ := match idkw with
    | some v => if v = 0 then none else some v
    | none => none
  let ngrams : TermMap := x.map (fun p => (p.1, { tf := p.2, ids := [id] }))
  let s1 := { s with upToDate := false }
  let s2 := { s1 with t := if s1.realtimefading then time else (s1.n : ℝ) }
  let res : Option ℕ × TCState :=
    if 0 < ngrams.length then
      let mc := mkMicrocluster ngrams s2.t 1 s2.realtime id (some s2.clusterId)
      let idf := calculateIDF (s2.microclusters.map Prod.snd)
      let cm := getClosestMc d s2 mc idf
      match cm.1 with
      | some cid =>
          (some cid,
           { s2 with
              num_merged_obs := s2.num_merged_obs + 1,
              microclusters := updateAt s2.microclusters cid
                (fun m => ({ m with n := m.n + 1 }).merge mc s2.t s2.omega s2.lam
                  s2.termfading s2.realtime),
              assignment := s2.assignment ++ [(s2.n, cid)],
              dist_mean := s2.dist_mean + cm.2 })
      | none =>
          (some s2.clusterId,
           { s2 with
              dist_mean := s2.dist_mean + cm.2,
              assignment := s2.assignment ++ [(s2.n, s2.clusterId)],
              microclusters := s2.microclusters ++ [(s2.clusterId, mc)],
              clusterId := s2.clusterId + 1 })
    else (none, s2)
  let s4 := res.2
  let s5 :=
    if s4.lastCleanup = none ∨ s4.tgap ≤ s4.t - (s4.lastCleanup.getD 0) then cleanup d s4
    else s4
  (res.1, { s5 with n := s5.n + 1 })

/-- The nearest-cluster scan of `textclust.get_assignment`: only clusters
with `weight > min_weight` take part; `dist = float('inf')`,
`closest = None` are modelled by the `none` start. -/
noncomputable def scanClosest (d : DistFn) (mc : Microcluster) (idf : Idf)
    (min_weight : ℝ) (micros : List (ℕ × Microcluster)) : Option (ℕ × ℝ) :=
  micros.foldl (fun best p =>
    if min_weight < p.2.weight then
      let cur := d mc p.2 idf
      match best with
      | none => some (p.1, cur)
      | some b => if cur < b.2 then some (p.1, cur) else some b
    else best) none

/-- `textclust.updateMacroClusters`: when the cache is stale, re-fade and
evict, filter by the weight threshold, recluster (via the abstract
`agglom`; with at most one survivor the labels are the literal `[1]` of the
source), store the micro-to-macro zip and set the freshness flag. -/
noncomputable def updateMacroClusters (agglom : AgglomFn) (s : TCState) : TCState :=
  if s.upToDate then s
  else
    let s1 := updateweightsState s
    let micros := s1.microclusters.filter
      (fun p => if s1.min_weight < p.2.weight then true else false)
    let numClusters := min (TCState.num_macro s1) micros.length
    let assigned : List ℕ := if 1 < micros.length then agglom micros numClusters else [1]
    { s1 with microToMacro := some ((micros.map Prod.fst).zip assigned), upToDate := true }

/-- Modelled from the spec: `get_microToMacro` is called by
`get_assignment` (macro mode) but is not defined anywhere in the sources.
Per the spec's description of the query operation, it returns the cached
micro-to-macro mapping, "triggering a reclustering recompute first if
stale". -/
noncomputable def get_microToMacro (agglom : AgglomFn) (s : TCState) :
    List (ℕ × ℕ) × TCState :=
  let s1 := updateMacroClusters agglom s
  (s1.microToMacro.getD [], s1)

/-- `textclust.get_assignment(x, type)`: fade/evict first, compute a fresh
IDF table, and for non-empty input scan the weight-filtered clusters for
the nearest one; micro mode returns its key, macro mode looks the key up in
the (freshly recomputed, if stale) micro-to-macro mapping.  A lookup of a
missing key (Python `KeyError`) and the silent `None` fall-through on empty
input are both modelled as result `none`. -/
noncomputable def get_assignment (d : DistFn) (agglom : AgglomFn) (s : TCState)
    (x : TermMap) (ty : String) : Option ℕ × TCState :=
  let s1 := updateweightsState s
  let idf := calculateIDF (s1.microclusters.map Prod.snd)
  if 0 < x.length then
    let mc := mkMicrocluster x 1 1 s1.realtime none none
    let scan := scanClosest d mc idf s1.min_weight s1.microclusters
    let assignment := scan.map Prod.fst
    if ty = "micro" then (assignment, s1)
    else
      let r := get_microToMacro agglom s1
      (assignment.bind (fun c => lookupA r.1 c), r.2)
  else (none, s1)

/-- `textclust.predict_one(x, sample_weight, type)`: wrap the raw term
counts and delegate to `get_assignment`. -/
noncomputable def predict_one (d : DistFn) (agglom : AgglomFn) (s : TCState)
    (x : List (String × ℝ)) (ty : String) : Option ℕ × TCState :=
  get_assignment d agglom s (x.map (fun p => (p.1, { tf := p.2, ids := [none] }))) ty

/-- `textclust.get_macroclusters`: recompute the cache if stale, create
`min(num_macro, len(microclusters))` empty representatives keyed
`0..k-1`, then merge every mapped micro-cluster into the representative
carrying its label.  A label with no representative key (Python `KeyError`
on `macros[value]`) yields `none`. -/
noncomputable def get_macroclusters (agglom : AgglomFn) (s : TCState) :
    Option (List (ℕ × Microcluster)) × TCState :=
  let s1 := updateMacroClusters agglom s
  let numClusters := min (TCState.num_macro s1) s1.microclusters.length
  let macros0 : List (ℕ × Microcluster) :=
    (List.range numClusters).map (fun x => (x, mkMicrocluster [] s1.t 0 s1.realtime none (some x)))
  let result := (s1.microToMacro.getD []).foldl (fun acc kv =>
    acc.bind (fun ms =>
      match lookupA s1.microclusters kv.1, lookupA ms kv.2 with
      | some micro, some _ =>
          some (updateAt ms kv.2
            (fun mac => mac.merge micro s1.t s1.omega s1.lam s1.termfading s1.realtime))
      | _, _ => none)) (some macros0)
  (result, s1)

/-- `textclust.distances`: holds the configured metric name. -/
structure distances where
  type : String

/-- `distances.dist`: `getattr(self, self.type, lambda: "Invalid distance
measure")(m1, m2, idf)`.  The class defines exactly one metric method,
`tfidf_cosine_distance`; for any other name `getattr` yields the fallback
zero-argument lambda, and calling it with three arguments raises
`TypeError` — modelled as an error value. -/
noncomputable def distances.dist (self : distances) (m1 m2 : Microcluster) (idf : Idf) :
    Except String ℝ :=
  if self.type = "tfidf_cosine_distance" then Except.ok (tfidf_cosine_distance m1 m2 idf)
  else Except.error "TypeError: the fallback takes 0 positional arguments but 3 were given"

/-- The constructed object: the state plus the two distance dispatchers. -/
structure TextclustInit where
  state : TCState
  micro_distance : distances
  macro_distance : distances

/-- `textclust.__init__`.  No argument is validated (in particular the
distance-metric names are only stored); construction always succeeds.
Python initializes `self.t = None`; the field is modelled as `0` — it is
overwritten before every use. -/
noncomputable def textclust_init (radius lam tgap : ℝ) (termfading realtimefading : Bool)
    (micro_distance macro_distance : String) ( num_macro : ℕ) (min_weight : ℝ)
    (auto_r auto_merge : Bool) (sigma : ℝ) : Except String TextclustInit :=
  let st : TCState :=
    { radius := radius, lam := lam, tgap := tgap, termfading := termfading,
      realtimefading := realtimefading, num_macro := num_macro, min_weight := min_weight,
      auto_r := auto_r, auto_merge := auto_merge, sigma := sigma,
      num_merged_obs := 0, t := 0, lastCleanup := some 0, n := 1,
      omega := (2 : ℝ) ^ (-lam * tgap),
      assignment := [], microclusters := [], clusterId := 0,
      microToMacro := none, upToDate := false, realtime := none, dist_mean := 0 }
  Except.ok
    { state := st, micro_distance := ⟨micro_distance⟩, macro_distance := ⟨macro_distance⟩ }

/-! ### C2: the threshold policy of `_get_closest_mc` -/

lemma closestStep_counter (d : DistFn) (mc : Microcluster) (idf : Idf)
    (acc : ClosestAcc) (p : ℕ × Microcluster) :
    (closestStep d mc idf acc p).counter = acc.counter + 1 := by
  unfold closestStep
  by_cases h : d mc p.2 idf < acc.minDist <;> simp [h]

lemma closestStep_sumdist (d : DistFn) (mc : Microcluster) (idf : Idf)
    (acc : ClosestAcc) (p : ℕ × Microcluster) :
    (closestStep d mc idf acc p).sumdist = acc.sumdist + d mc p.2 idf := by
  unfold closestStep
  by_cases h : d mc p.2 idf < acc.minDist <;> simp [h]

lemma closestStep_squaresum (d : DistFn) (mc : Microcluster) (idf : Idf)
    (acc : ClosestAcc) (p : ℕ × Microcluster) :
    (closestStep d mc idf acc p).squaresum = acc.squaresum + (d mc p.2 idf) ^ 2 := by
  unfold closestStep
  by_cases h : d mc p.2 idf < acc.minDist <;> simp [h]

lemma closestStep_minDist_le (d : DistFn) (mc : Microcluster) (idf : Idf)
    (acc : ClosestAcc) (p : ℕ × Microcluster) :
    (closestStep d mc idf acc p).minDist ≤ acc.minDist := by
  unfold closestStep
  by_cases h : d mc p.2 idf < acc.minDist
  · simp [h]
    linarith
  · simp [h]

lemma closestStep_minDist_le_dist (d : DistFn) (mc : Microcluster) (idf : Idf)
    (acc : ClosestAcc) (p : ℕ × Microcluster) :
    (closestStep d mc idf acc p).minDist ≤ d mc p.2 idf := by
  unfold closestStep
  by_cases h : d mc p.2 idf < acc.minDist
  · simp [h]
  · simp [h]
    linarith

lemma closestStep_none (d : DistFn) (mc : Microcluster) (idf : Idf)
    (acc : ClosestAcc) (p : ℕ × Microcluster)
    (h : (closestStep d mc idf acc p).smallestKey = none) :
    acc.smallestKey = none ∧ (closestStep d mc idf acc p).minDist = acc.minDist := by
  unfold closestStep at h ⊢
  by_cases hlt : d mc p.2 idf < acc.minDist
  · simp [hlt] at h
  · simp [hlt] at h ⊢
    exact h

lemma foldl_closestStep_counter (d : DistFn) (mc : Microcluster) (idf : Idf)
    (l : List (ℕ × Microcluster)) :
    ∀ acc, (l.foldl (closestStep d mc idf) acc).counter = acc.counter + l.length := by
  induction l with
  | nil => intro acc; simp
  | cons q t ih =>
      intro acc
      rw [List.foldl_cons, ih, closestStep_counter]
      simp [List.length_cons]
      omega

lemma foldl_closestStep_sumdist (d : DistFn) (mc : Microcluster) (idf : Idf)
    (l : List (ℕ × Microcluster)) :
    ∀ acc, (l.foldl (closestStep d mc idf) acc).sumdist
      = acc.sumdist + (l.map (fun p => d mc p.2 idf)).sum := by
  induction l with
  | nil => intro acc; simp
  | cons q t ih =>
      intro acc
      rw [List.foldl_cons, ih, closestStep_sumdist]
      simp [add_assoc]

lemma foldl_closestStep_squaresum (d : DistFn) (mc : Microcluster) (idf : Idf)
    (l : List (ℕ × Microcluster)) :
    ∀ acc, (l.foldl (closestStep d mc idf) acc).squaresum
      = acc.squaresum + (l.map (fun p => (d mc p.2 idf) ^ 2)).sum := by
  induction l with
  | nil => intro acc; simp
  | cons q t ih =>
      intro acc
      rw [List.foldl_cons, ih, closestStep_squaresum]
      simp [add_assoc]

lemma foldl_closestStep_minDist_le (d : DistFn) (mc : Microcluster) (idf : Idf)
    (l : List (ℕ × Microcluster)) :
    ∀ acc, (l.foldl (closestStep d mc idf) acc).minDist ≤ acc.minDist := by
  induction l with
  | nil => intro acc; simp
  | cons q t ih =>
      intro acc
      rw [List.foldl_cons]
      exact le_trans (ih _) (closestStep_minDist_le d mc idf acc q)

lemma foldl_closestStep_minDist_le_all (d : DistFn) (mc : Microcluster) (idf : Idf)
    (l : List (ℕ × Microcluster)) :
    ∀ acc, ∀ q ∈ l, (l.foldl (closestStep d mc idf) acc).minDist ≤ d mc q.2 idf := by
  induction l with
  | nil => intro acc q hq; cases hq
  | cons p t ih =>
      intro acc q hq
      rw [List.foldl_cons]
      rcases List.mem_cons.mp hq with hq | hq
      · subst hq
        exact le_trans (foldl_closestStep_minDist_le d mc idf t _)
          (closestStep_minDist_le_dist d mc idf acc q)
      · exact ih _ q hq

lemma foldl_closestStep_none (d : DistFn) (mc : Microcluster) (idf : Idf)
    (l : List (ℕ × Microcluster)) :
    ∀ acc, (acc.smallestKey = none → acc.minDist = 1) →
      (l.foldl (closestStep d mc idf) acc).smallestKey = none →
      (l.foldl (closestStep d mc idf) acc).minDist = 1 := by
  induction l with
  | nil => intro acc h hn; exact h hn
  | cons q t ih =>
      intro acc h hn
      rw [List.foldl_cons] at hn ⊢
      apply ih _ _ hn
      intro hstep
      obtain ⟨h1, h2⟩ := closestStep_none d mc idf acc q hstep
      rw [h2]
      exact h h1

lemma closestStep_eq (d : DistFn) (mc : Microcluster) (idf : Idf)
    (acc : ClosestAcc) (p : ℕ × Microcluster) :
    closestStep d mc idf acc p =
      if d mc p.2 idf < acc.minDist then
        ⟨d mc p.2 idf, some p.1, acc.sumdist + d mc p.2 idf,
          acc.squaresum + (d mc p.2 idf) ^ 2, acc.counter + 1⟩
      else
        ⟨acc.minDist, acc.smallestKey, acc.sumdist + d mc p.2 idf,
          acc.squaresum + (d mc p.2 idf) ^ 2, acc.counter + 1⟩ := by
  unfold closestStep
  by_cases h : d mc p.2 idf < acc.minDist
  · simp [h]
  · simp [h]

lemma foldl_closestStep_some_mem (d : DistFn) (mc : Microcluster) (idf : Idf)
    (l : List (ℕ × Microcluster)) :
    ∀ k, (l.foldl (closestStep d mc idf) ⟨1, none, 0, 0, 0⟩).smallestKey = some k →
      ∃ m, (k, m) ∈ l ∧
        d mc m idf = (l.foldl (closestStep d mc idf) ⟨1, none, 0, 0, 0⟩).minDist := by
  induction l using List.reverseRecOn with
  | nil => intro k hk; simp at hk
  | append_singleton l q ih =>
      intro k hk
      rw [List.foldl_append, List.foldl_cons, List.foldl_nil, closestStep_eq] at hk ⊢
      by_cases hlt : d mc q.2 idf <
          (l.foldl (closestStep d mc idf) ⟨1, none, 0, 0, 0⟩).minDist
      · rw [if_pos hlt] at hk ⊢
        simp at hk ⊢
        subst hk
        refine ⟨q.2, ?_, ?_⟩ <;> simp
      · rw [if_neg hlt] at hk ⊢
        simp at hk ⊢
        obtain ⟨m, hm, hdm⟩ := ih k hk
        exact ⟨m, Or.inl hm, hdm⟩

/-- C2.  The acceptance decision of `_get_closest_mc`, for any distance
function bounded by 1 on the live clusters (the tf-idf cosine distance is),
a configured radius in `(0, 1]` and a non-negative `sigma`:
in fixed mode the nearest cluster is returned iff the minimum distance is
strictly below the radius; in adaptive mode at least two live clusters are
required (with fewer, `None` is returned and a new cluster is created), and
with `n ≥ 2` clusters acceptance happens iff the minimum distance is
strictly below `mu - sigma * sqrt(squaresum/(n-1) - mu^2)` where
`mu = (sumDistances - minDistance)/(n-1)`; moreover the loop statistics are
the count, sum and sum of squares of all distances, and any returned key
belongs to a live cluster realizing the minimum distance. -/
theorem C2_threshold_policy (d : DistFn) (s : TCState) (mc : Microcluster) (idf : Idf)
    (hr : s.radius ≤ 1) (hsig : 0 ≤ s.sigma)
    (hd : ∀ p ∈ s.microclusters, d mc p.2 idf ≤ 1) :
    (s.auto_r = false → ((getClosestMc d s mc idf).1.isSome ↔
        (closestStats d mc idf s.microclusters).minDist < s.radius)) ∧
    (s.auto_r = true → s.microclusters.length ≤ 1 →
        (getClosestMc d s mc idf).1 = none) ∧
    (s.auto_r = true → 2 ≤ s.microclusters.length →
        ((getClosestMc d s mc idf).1.isSome ↔
          (closestStats d mc idf s.microclusters).minDist <
            ((closestStats d mc idf s.microclusters).sumdist -
                (closestStats d mc idf s.microclusters).minDist) /
                ((s.microclusters.length : ℝ) - 1) -
              s.sigma * Real.sqrt ((closestStats d mc idf s.microclusters).squaresum /
                  ((s.microclusters.length : ℝ) - 1) -
                (((closestStats d mc idf s.microclusters).sumdist -
                    (closestStats d mc idf s.microclusters).minDist) /
                    ((s.microclusters.length : ℝ) - 1)) ^ 2))) ∧
    (closestStats d mc idf s.microclusters).counter = s.microclusters.length ∧
    (closestStats d mc idf s.microclusters).sumdist =
      (s.microclusters.map (fun p => d mc p.2 idf)).sum ∧
    (closestStats d mc idf s.microclusters).squaresum =
      (s.microclusters.map (fun p => (d mc p.2 idf) ^ 2)).sum ∧
    (∀ k, (getClosestMc d s mc idf).1 = some k →
      ∃ m, (k, m) ∈ s.microclusters ∧
        d mc m idf = (closestStats d mc idf s.microclusters).minDist ∧
        ∀ q ∈ s.microclusters,
          (closestStats d mc idf s.microclusters).minDist ≤ d mc q.2 idf) := by
  have hcount : (closestStats d mc idf s.microclusters).counter = s.microclusters.length := by
    unfold closestStats
    rw [foldl_closestStep_counter]
    simp
  have hsum : (closestStats d mc idf s.microclusters).sumdist =
      (s.microclusters.map (fun p => d mc p.2 idf)).sum := by
    unfold closestStats
    rw [foldl_closestStep_sumdist]
    simp
  have hsq : (closestStats d mc idf s.microclusters).squaresum =
      (s.microclusters.map (fun p => (d mc p.2 idf) ^ 2)).sum := by
    unfold closestStats
    rw [foldl_closestStep_squaresum]
    simp
  have hnone1 : (closestStats d mc idf s.microclusters).smallestKey = none →
      (closestStats d mc idf s.microclusters).minDist = 1 := by
    unfold closestStats
    intro h
    exact foldl_closestStep_none d mc idf s.microclusters _ (fun _ => rfl) h
  have hsome : (closestStats d mc idf s.microclusters).minDist < 1 →
      (closestStats d mc idf s.microclusters).smallestKey.isSome := by
    intro hlt
    cases h : (closestStats d mc idf s.microclusters).smallestKey with
    | none => exact absurd (hnone1 h ▸ hlt) (lt_irrefl 1)
    | some k => simp
  refine ⟨?_, ?_, ?_, hcount, hsum, hsq, ?_⟩
  · intro hauto
    unfold getClosestMc
    rw [hauto]
    rw [if_neg (by simp)]
    by_cases hlt : (closestStats d mc idf s.microclusters).minDist < s.radius
    · rw [if_pos hlt]
      simp only [hlt, iff_true]
      exact hsome (lt_of_lt_of_le hlt hr)
    · rw [if_neg hlt]
      simp [hlt]
  · intro hauto hlen
    unfold getClosestMc
    rw [hauto]
    rw [if_pos rfl]
    have : ¬ 1 < (closestStats d mc idf s.microclusters).counter := by
      rw [hcount]
      omega
    rw [if_neg this]
  · intro hauto hlen
    unfold getClosestMc
    rw [hauto]
    rw [if_pos rfl]
    have hc1 : 1 < (closestStats d mc idf s.microclusters).counter := by
      rw [hcount]
      omega
    rw [if_pos hc1, hcount]
    set acc := closestStats d mc idf s.microclusters with hacc
    set n : ℝ := (s.microclusters.length : ℝ) with hn
    set mu : ℝ := (acc.sumdist - acc.minDist) / (n - 1) with hmu
    set tr : ℝ := mu - s.sigma * Real.sqrt (acc.squaresum / (n - 1) - mu ^ 2) with htr
    by_cases haccept : acc.minDist < tr
    · rw [if_pos haccept]
      simp only [haccept, iff_true]
      cases h : acc.smallestKey with
      | some k => simp
      | none =>
          exfalso
          have hmin1 : acc.minDist = 1 := hnone1 h
          have hn1 : (1 : ℝ) ≤ n - 1 := by
            rw [hn]
            have : (2 : ℝ) ≤ (s.microclusters.length : ℝ) := by exact_mod_cast hlen
            linarith
          have hsumle : acc.sumdist ≤ n := by
            rw [hsum, hn]
            have hbound : ∀ x ∈ s.microclusters.map (fun p => d mc p.2 idf), x ≤ 1 := by
              intro x hx
              obtain ⟨p, hp, rfl⟩ := List.mem_map.mp hx
              exact hd p hp
            have hcard := List.sum_le_card_nsmul
              (s.microclusters.map (fun p => d mc p.2 idf)) 1 hbound
            simpa [nsmul_eq_mul] using hcard
          have hmule : mu ≤ 1 := by
            rw [hmu, div_le_one (by linarith), hmin1]
            linarith
          have htrle : tr ≤ 1 := by
            rw [htr]
            have h1 : 0 ≤ s.sigma * Real.sqrt (acc.squaresum / (n - 1) - mu ^ 2) :=
              mul_nonneg hsig (Real.sqrt_nonneg _)
            linarith
          rw [hmin1] at haccept
          linarith
    · rw [if_neg haccept]
      simp [haccept]
  · intro k hk
    have hmem : (closestStats d mc idf s.microclusters).smallestKey = some k := by
      unfold getClosestMc at hk
      by_cases hauto : s.auto_r
      · rw [if_pos hauto] at hk
        by_cases hc : 1 < (closestStats d mc idf s.microclusters).counter
        · rw [if_pos hc] at hk
          by_cases ha : (closestStats d mc idf s.microclusters).minDist <
              ((closestStats d mc idf s.microclusters).sumdist -
                (closestStats d mc idf s.microclusters).minDist) /
                (((closestStats d mc idf s.microclusters).counter : ℝ) - 1) -
              s.sigma * Real.sqrt ((closestStats d mc idf s.microclusters).squaresum /
                  (((closestStats d mc idf s.microclusters).counter : ℝ) - 1) -
                (((closestStats d mc idf s.microclusters).sumdist -
                  (closestStats d mc idf s.microclusters).minDist) /
                  (((closestStats d mc idf s.microclusters).counter : ℝ) - 1)) ^ 2)
          · rw [if_pos ha] at hk
            exact hk
          · rw [if_neg ha] at hk
            cases hk
        · rw [if_neg hc] at hk
          cases hk
      · rw [if_neg hauto] at hk
        by_cases ha : (closestStats d mc idf s.microclusters).minDist < s.radius
        · rw [if_pos ha] at hk
          exact hk
        · rw [if_neg ha] at hk
          cases hk
    obtain ⟨m, hm, hdm⟩ := foldl_closestStep_some_mem d mc idf s.microclusters k hmem
    exact ⟨m, hm, hdm,
      fun q hq => foldl_closestStep_minDist_le_all d mc idf s.microclusters _ q hq⟩

/-- A concrete engine state used by the concrete theorems below:
fixed mode, radius 1/2, no decay (`_lambda = 0`, hence `omega = 1`),
observation-count fading, no clusters yet. -/
noncomputable def state0 : TCState :=
  { radius := 1 / 2, lam := 0, tgap := 100, termfading := true, realtimefading := false,
    num_macro := 3, min_weight := 0, auto_r := false, auto_merge := false, sigma := 1,
    num_merged_obs := 0, t := 0, lastCleanup := some 0, n := 1, omega := 1,
    assignment := [], microclusters := [], clusterId := 0,
    microToMacro := none, upToDate := false, realtime := none, dist_mean := 0 }

/-- C2, witness: the policy theorem applied to the concrete fixed-mode state
`state0` (radius 1/2, no live clusters) with the constant-zero distance. -/
theorem C2_threshold_policy_witness :
    (state0.auto_r = false →
      ((getClosestMc (fun _ _ _ => 0) state0 mcA []).1.isSome ↔
        (closestStats (fun _ _ _ => 0) mcA [] state0.microclusters).minDist < state0.radius)) ∧
    (state0.auto_r = true → state0.microclusters.length ≤ 1 →
        (getClosestMc (fun _ _ _ => 0) state0 mcA []).1 = none) ∧
    (state0.auto_r = true → 2 ≤ state0.microclusters.length →
        ((getClosestMc (fun _ _ _ => 0) state0 mcA []).1.isSome ↔
          (closestStats (fun _ _ _ => 0) mcA [] state0.microclusters).minDist <
            ((closestStats (fun _ _ _ => 0) mcA [] state0.microclusters).sumdist -
                (closestStats (fun _ _ _ => 0) mcA [] state0.microclusters).minDist) /
                ((state0.microclusters.length : ℝ) - 1) -
              state0.sigma *
                Real.sqrt ((closestStats (fun _ _ _ => 0) mcA [] state0.microclusters).squaresum /
                    ((state0.microclusters.length : ℝ) - 1) -
                  (((closestStats (fun _ _ _ => 0) mcA [] state0.microclusters).sumdist -
                      (closestStats (fun _ _ _ => 0) mcA [] state0.microclusters).minDist) /
                      ((state0.microclusters.length : ℝ) - 1)) ^ 2))) ∧
    (closestStats (fun _ _ _ => 0) mcA [] state0.microclusters).counter =
      state0.microclusters.length ∧
    (closestStats (fun _ _ _ => 0) mcA [] state0.microclusters).sumdist =
      (state0.microclusters.map (fun p => (fun (_ : Microcluster) (_ : Microcluster) (_ : Idf) => (0:ℝ)) mcA p.2 [])).sum ∧
    (closestStats (fun _ _ _ => 0) mcA [] state0.microclusters).squaresum =
      (state0.microclusters.map (fun p => ((fun (_ : Microcluster) (_ : Microcluster) (_ : Idf) => (0:ℝ)) mcA p.2 []) ^ 2)).sum ∧
    (∀ k, (getClosestMc (fun _ _ _ => 0) state0 mcA []).1 = some k →
      ∃ m, (k, m) ∈ state0.microclusters ∧
        (fun (_ : Microcluster) (_ : Microcluster) (_ : Idf) => (0:ℝ)) mcA m [] =
          (closestStats (fun _ _ _ => 0) mcA [] state0.microclusters).minDist ∧
        ∀ q ∈ state0.microclusters,
          (closestStats (fun _ _ _ => 0) mcA [] state0.microclusters).minDist ≤
            (fun (_ : Microcluster) (_ : Microcluster) (_ : Idf) => (0:ℝ)) mcA q.2 []) :=
  C2_threshold_policy (fun _ _ _ => 0) state0 mcA []
    (by norm_num [state0])
    (by norm_num [state0])
    (by intro p hp; simp [state0] at hp)

/-! ### C9: unknown distance-metric names -/

/-- C9, counterexample.  Constructing the clusterer with the unknown metric
name `"bogus"` SUCCEEDS (`__init__` merely stores the name; nothing is
validated), refuting the claim that construction fails; the failure only
happens later, at the first distance call, where the `getattr` fallback
raises a `TypeError`. -/
theorem C9_unknown_metric_counterexample :
    (∃ v, textclust_init (3 / 10) (1 / 2000) 100 true true "bogus" "tfidf_cosine_distance"
        3 0 false true 1 = Except.ok v ∧ v.micro_distance.type = "bogus") ∧
    distances.dist ⟨"bogus"⟩ mcA mcA [] =
      Except.error "TypeError: the fallback takes 0 positional arguments but 3 were given" := by
  constructor
  · exact ⟨_, rfl, rfl⟩
  · unfold distances.dist
    rw [if_neg (by decide)]

/-- C9, amended.  For every metric name that matches no implemented metric,
construction still succeeds (the name is stored unvalidated), and every
per-call distance computation with that name fails at call time: the
`getattr` fallback lambda is called with three arguments and raises
`TypeError`. -/
theorem C9_unknown_metric (ty : String) (h : ty ≠ "tfidf_cosine_distance") :
    (∀ (radius lam tgap : ℝ) (tf rtf : Bool) (mac : String) (nm : ℕ) (mw : ℝ)
        (ar am : Bool) (sg : ℝ), ∃ v,
      textclust_init radius lam tgap tf rtf ty mac nm mw ar am sg = Except.ok v ∧
        v.micro_distance.type = ty) ∧
    (∀ m1 m2 idf, ∃ e, distances.dist ⟨ty⟩ m1 m2 idf = Except.error e) := by
  constructor
  · intro radius lam tgap tf rtf mac nm mw ar am sg
    exact ⟨_, rfl, rfl⟩
  · intro m1 m2 idf
    refine ⟨"TypeError: the fallback takes 0 positional arguments but 3 were given", ?_⟩
    unfold distances.dist
    rw [if_neg h]

/-- C9, witness: the amended statement at the concrete unknown name
`"bogus"`. -/
theorem C9_unknown_metric_witness :
    (∀ (radius lam tgap : ℝ) (tf rtf : Bool) (mac : String) (nm : ℕ) (mw : ℝ)
        (ar am : Bool) (sg : ℝ), ∃ v,
      textclust_init radius lam tgap tf rtf "bogus" mac nm mw ar am sg = Except.ok v ∧
        v.micro_distance.type = "bogus") ∧
    (∀ m1 m2 idf, ∃ e, distances.dist ⟨"bogus"⟩ m1 m2 idf = Except.error e) :=
  C9_unknown_metric "bogus" (by decide)

/-! ### C5: the state effect of the query operation -/

lemma fade_def (mc : Microcluster) (tnow omega lam : ℝ) (tfad : Bool) (rt : Option ℝ) :
    mc.fade tnow omega lam tfad rt =
      { mc with
        weight := mc.weight * (2 : ℝ) ^ (-lam * (tnow - mc.time)),
        tf := if tfad then
            (mc.tf.map (fun p =>
              (p.1, { p.2 with tf := p.2.tf * (2 : ℝ) ^ (-lam * (tnow - mc.time)) }))).filter
              (fun p => if p.2.tf ≤ omega then false else true)
          else mc.tf,
        time := tnow, realtime := rt } := rfl

/-- Fading a cluster twice to the same time is the same as fading it once:
the second factor is `2^0 = 1` and the term filter passes everything that
already survived it. -/
lemma fade_idem (mc : Microcluster) (t omega lam : ℝ) (tfad : Bool) (rt : Option ℝ) :
    (mc.fade t omega lam tfad rt).fade t omega lam tfad rt = mc.fade t omega lam tfad rt := by
  have htime : (mc.fade t omega lam tfad rt).time = t := rfl
  have hfac : (2 : ℝ) ^ (-lam * (t - (mc.fade t omega lam tfad rt).time)) = 1 := by
    rw [htime, sub_self, mul_zero, Real.rpow_zero]
  rw [fade_def (mc.fade t omega lam tfad rt), hfac]
  cases tfad with
  | false =>
      show ({ mc.fade t omega lam false rt with
        weight := (mc.fade t omega lam false rt).weight * 1,
        tf := (mc.fade t omega lam false rt).tf,
        time := t, realtime := rt } : Microcluster) = mc.fade t omega lam false rt
      rw [mul_one]
      rfl
  | true =>
      have hmap : (mc.fade t omega lam true rt).tf.map
          (fun p => (p.1, { p.2 with tf := p.2.tf * 1 })) = (mc.fade t omega lam true rt).tf := by
        have hcongr : ∀ p ∈ (mc.fade t omega lam true rt).tf,
            (p.1, ({ p.2 with tf := p.2.tf * 1 } : TermEntry)) = p := by
          intro p _
          rw [mul_one]
        calc (mc.fade t omega lam true rt).tf.map
              (fun p => (p.1, { p.2 with tf := p.2.tf * 1 }))
            = (mc.fade t omega lam true rt).tf.map id := List.map_congr_left hcongr
          _ = (mc.fade t omega lam true rt).tf := List.map_id _
      have hfil : (mc.fade t omega lam true rt).tf.filter
          (fun p => if p.2.tf ≤ omega then false else true)
            = (mc.fade t omega lam true rt).tf := by
        rw [List.filter_eq_self]
        intro p hp
        have : (mc.fade t omega lam true rt).tf =
            (mc.tf.map (fun p =>
              (p.1, { p.2 with tf := p.2.tf * (2 : ℝ) ^ (-lam * (t - mc.time)) }))).filter
              (fun p => if p.2.tf ≤ omega then false else true) := rfl
        rw [this] at hp
        exact (List.mem_filter.mp hp).2
      show ({ mc.fade t omega lam true rt with
        weight := (mc.fade t omega lam true rt).weight * 1,
        tf := ((mc.fade t omega lam true rt).tf.map
          (fun p => (p.1, { p.2 with tf := p.2.tf * 1 }))).filter
          (fun p => if p.2.tf ≤ omega then false else true),
        time := t, realtime := rt } : Microcluster) = mc.fade t omega lam true rt
      rw [mul_one, hmap, hfil]
      rfl

/-- `_updateweights` is idempotent: re-fading to the same time changes
nothing and no further cluster is evicted. -/
lemma updateweights_idem (s : TCState) :
    updateweightsState (updateweightsState s) = updateweightsState s := by
  have hmap : (updateweightsState s).microclusters.map
      (fun p => (p.1, p.2.fade s.t s.omega s.lam s.termfading s.realtime))
        = (updateweightsState s).microclusters := by
    have hcongr : ∀ p ∈ (updateweightsState s).microclusters,
        (p.1, p.2.fade s.t s.omega s.lam s.termfading s.realtime) = p := by
      intro p hp
      have hp' : p ∈ (s.microclusters.map
          (fun p => (p.1, p.2.fade s.t s.omega s.lam s.termfading s.realtime))).filter
          (fun p => if p.2.weight ≤ s.omega ∨ p.2.tf = [] then false else true) := hp
      obtain ⟨q, _, hq⟩ := List.mem_map.mp (List.mem_filter.mp hp').1
      have : p.2 = q.2.fade s.t s.omega s.lam s.termfading s.realtime := by
        rw [← hq]
      rw [this, fade_idem, ← this]
    calc (updateweightsState s).microclusters.map
          (fun p => (p.1, p.2.fade s.t s.omega s.lam s.termfading s.realtime))
        = (updateweightsState s).microclusters.map id := List.map_congr_left hcongr
      _ = (updateweightsState s).microclusters := List.map_id _
  have hfil : (updateweightsState s).microclusters.filter
      (fun p => if p.2.weight ≤ s.omega ∨ p.2.tf = [] then false else true)
        = (updateweightsState s).microclusters := by
    rw [List.filter_eq_self]
    intro p hp
    exact (List.mem_filter.mp hp).2
  show ({ updateweightsState s with
    microclusters := ((updateweightsState s).microclusters.map
      (fun p => (p.1, p.2.fade s.t s.omega s.lam s.termfading s.realtime))).filter
      (fun p => if p.2.weight ≤ s.omega ∨ p.2.tf = [] then false else true) } : TCState)
      = updateweightsState s
  rw [hmap, hfil]

/-- The concrete state of the C5 counterexample: decay rate 1, current time
1, one cluster of weight 4 last updated at time 0. -/
noncomputable def c5state : TCState :=
  { state0 with
    lam := 1, omega := 0, t := 1,
    microclusters := [(0, mkMicrocluster [("a", ⟨4, [none]⟩)] 0 4 none none (some 0))] }

/-- C5, counterexample.  On `c5state`, the nearest-cluster query
(`predict_one` via `get_assignment`, micro mode) halves the stored cluster
weight from 4 to 2 — the live clusters are faded (and possibly evicted) by
the `_updateweights` call, so predict is NOT free of cluster-state
mutation. -/
theorem C5_predict_mutation_counterexample :
    ((get_assignment (fun _ _ _ => 0) (fun _ _ => []) c5state
        [("a", ⟨1, [none]⟩)] "micro").2.microclusters.map (fun p => p.2.weight)) = [2] ∧
    (c5state.microclusters.map (fun p => p.2.weight)) = [4] := by
  have hfac : (2 : ℝ) ^ (-(1 : ℝ) * ((1 : ℝ) - 0)) = 1 / 2 := by
    rw [show (-(1 : ℝ) * ((1 : ℝ) - 0)) = (-1 : ℝ) by norm_num, two_rpow_neg_one]
  constructor
  · show ((updateweightsState c5state).microclusters.map (fun p => p.2.weight)) = [2]
    unfold updateweightsState
    simp only [c5state, state0, mkMicrocluster, fade_def, List.map_cons, List.map_nil, hfac]
    norm_num
  · simp [c5state, state0, mkMicrocluster]

/-- C5, amended.  The query operation does mutate the store, but only
through the `_updateweights` fading/eviction pass and the reclustering
cache: for every input and mode, the state after `get_assignment` is
exactly `_updateweights` of the previous state with (possibly) new values
of `microToMacro` and `upToDate`; in particular the assignment log,
counters, time and id counter are untouched. -/
theorem C5_predict_frame (d : DistFn) (agglom : AgglomFn) (s : TCState)
    (x : TermMap) (ty : String) :
    (∃ cache : Option (List (ℕ × ℕ)), ∃ fresh : Bool,
      (get_assignment d agglom s x ty).2 =
        { updateweightsState s with microToMacro := cache, upToDate := fresh }) ∧
    (get_assignment d agglom s x ty).2.assignment = s.assignment ∧
    (get_assignment d agglom s x ty).2.n = s.n ∧
    (get_assignment d agglom s x ty).2.t = s.t ∧
    (get_assignment d agglom s x ty).2.clusterId = s.clusterId ∧
    (get_assignment d agglom s x ty).2.dist_mean = s.dist_mean ∧
    (get_assignment d agglom s x ty).2.num_merged_obs = s.num_merged_obs ∧
    (get_assignment d agglom s x ty).2.lastCleanup = s.lastCleanup := by
  have hmain : ∃ cache : Option (List (ℕ × ℕ)), ∃ fresh : Bool,
      (get_assignment d agglom s x ty).2 =
        { updateweightsState s with microToMacro := cache, upToDate := fresh } := by
    unfold get_assignment
    by_cases hx : 0 < x.length
    · rw [if_pos hx]
      by_cases hty : ty = "micro"
      · rw [if_pos hty]
        exact ⟨s.microToMacro, s.upToDate, rfl⟩
      · rw [if_neg hty]
        unfold get_microToMacro updateMacroClusters
        by_cases hup : (updateweightsState s).upToDate
        · rw [if_pos hup]
          exact ⟨s.microToMacro, s.upToDate, rfl⟩
        · rw [if_neg hup]
          rw [updateweights_idem]
          exact ⟨_, _, rfl⟩
    · rw [if_neg hx]
      exact ⟨s.microToMacro, s.upToDate, rfl⟩
  obtain ⟨cache, fresh, h⟩ := hmain
  refine ⟨⟨cache, fresh, h⟩, ?_, ?_, ?_, ?_, ?_, ?_, ?_⟩ <;> rw [h] <;> rfl

/-! ### C6: macro-mode prediction -/

lemma scanClosest_none (d : DistFn) (mc : Microcluster) (idf : Idf) (mw : ℝ)
    (l : List (ℕ × Microcluster)) (h : scanClosest d mc idf mw l = none) :
    ∀ q ∈ l, ¬ mw < q.2.weight := by
  induction l using List.reverseRecOn with
  | nil => intro q hq; cases hq
  | append_singleton l q ih =>
      unfold scanClosest at h ih
      rw [List.foldl_append, List.foldl_cons, List.foldl_nil] at h
      by_cases hw : mw < q.2.weight
      · rw [if_pos hw] at h
        exfalso
        cases hprev : l.foldl _ none with
        | none => rw [hprev] at h; simp at h
        | some b =>
            rw [hprev] at h
            by_cases hlt : d mc q.2 idf < b.2
            · simp [hlt] at h
            · simp [hlt] at h
      · rw [if_neg hw] at h
        intro q' hq'
        rcases List.mem_append.mp hq' with hq' | hq'
        · exact ih h q' hq'
        · rw [List.mem_singleton.mp hq']
          exact hw

lemma scanClosest_spec (d : DistFn) (mc : Microcluster) (idf : Idf) (mw : ℝ)
    (l : List (ℕ × Microcluster)) :
    ∀ k dv, scanClosest d mc idf mw l = some (k, dv) →
      ∃ m, (k, m) ∈ l ∧ mw < m.weight ∧ d mc m idf = dv ∧
        ∀ q ∈ l, mw < q.2.weight → dv ≤ d mc q.2 idf := by
  induction l using List.reverseRecOn with
  | nil => intro k dv hk; simp [scanClosest] at hk
  | append_singleton l q ih =>
      intro k dv hk
      unfold scanClosest at hk ih
      rw [List.foldl_append, List.foldl_cons, List.foldl_nil] at hk
      by_cases hw : mw < q.2.weight
      · rw [if_pos hw] at hk
        cases hprev : l.foldl _ none with
        | none =>
            rw [hprev] at hk
            simp at hk
            obtain ⟨hk1, hk2⟩ := hk
            subst hk1
            subst hk2
            refine ⟨q.2, by simp, hw, rfl, ?_⟩
            intro q' hq' hq'w
            rcases List.mem_append.mp hq' with hq' | hq'
            · exact absurd hq'w (scanClosest_none d mc idf mw l hprev q' hq')
            · rw [List.mem_singleton.mp hq']
        | some b =>
            rw [hprev] at hk
            obtain ⟨m, hm, hmw, hmd, hmin⟩ := ih b.1 b.2 (by rw [hprev])
            by_cases hlt : d mc q.2 idf < b.2
            · simp [hlt] at hk
              obtain ⟨hk1, hk2⟩ := hk
              subst hk1
              subst hk2
              refine ⟨q.2, by simp, hw, rfl, ?_⟩
              intro q' hq' hq'w
              rcases List.mem_append.mp hq' with hq' | hq'
              · exact le_trans hlt.le (hmin q' hq' hq'w)
              · rw [List.mem_singleton.mp hq']
            · simp [hlt] at hk
              subst hk
              refine ⟨m, List.mem_append.mpr (Or.inl hm), hmw, hmd, ?_⟩
              intro q' hq' hq'w
              rcases List.mem_append.mp hq' with hq' | hq'
              · exact hmin q' hq' hq'w
              · rw [List.mem_singleton.mp hq']
                exact le_of_not_lt hlt
      · rw [if_neg hw] at hk
        obtain ⟨m, hm, hmw, hmd, hmin⟩ := ih k dv hk
        refine ⟨m, List.mem_append.mpr (Or.inl hm), hmw, hmd, ?_⟩
        intro q' hq' hq'w
        rcases List.mem_append.mp hq' with hq' | hq'
        · exact hmin q' hq' hq'w
        · rw [List.mem_singleton.mp hq'] at hq'w ⊢
          exact absurd hq'w hw

/-- C6.  For a non-empty input in macro mode with a stale cache, the query
first recomputes the macro clustering (`updateMacroClusters`, setting the
freshness flag) and returns the macro label obtained by looking up the
nearest micro-cluster's key in the recomputed micro-to-macro mapping; the
nearest key, when one exists, is a live weight-passing cluster realizing
the minimum distance over all weight-passing clusters.
(`get_microToMacro`, absent from the sources, is modelled from the spec.) -/
theorem C6_predict_macro (d : DistFn) (agglom : AgglomFn) (s : TCState) (x : TermMap)
    (hx : x ≠ []) (hstale : s.upToDate = false) :
    (get_assignment d agglom s x "macro").1 =
      ((scanClosest d (mkMicrocluster x 1 1 (updateweightsState s).realtime none none)
          (calculateIDF ((updateweightsState s).microclusters.map Prod.snd))
          (updateweightsState s).min_weight
          (updateweightsState s).microclusters).map Prod.fst).bind
        (fun c => lookupA
          ((updateMacroClusters agglom (updateweightsState s)).microToMacro.getD []) c) ∧
    (get_assignment d agglom s x "macro").2 =
      updateMacroClusters agglom (updateweightsState s) ∧
    (updateMacroClusters agglom (updateweightsState s)).upToDate = true ∧
    (∀ k dv, scanClosest d (mkMicrocluster x 1 1 (updateweightsState s).realtime none none)
          (calculateIDF ((updateweightsState s).microclusters.map Prod.snd))
          (updateweightsState s).min_weight
          (updateweightsState s).microclusters = some (k, dv) →
      ∃ m, (k, m) ∈ (updateweightsState s).microclusters ∧
        (updateweightsState s).min_weight < m.weight ∧
        d (mkMicrocluster x 1 1 (updateweightsState s).realtime none none) m
          (calculateIDF ((updateweightsState s).microclusters.map Prod.snd)) = dv ∧
        ∀ q ∈ (updateweightsState s).microclusters,
          (updateweightsState s).min_weight < q.2.weight →
          dv ≤ d (mkMicrocluster x 1 1 (updateweightsState s).realtime none none) q.2
            (calculateIDF ((updateweightsState s).microclusters.map Prod.snd))) := by
  have hxlen : 0 < x.length := List.length_pos.mpr hx
  have hup1 : (updateweightsState s).upToDate = false := hstale
  refine ⟨?_, ?_, ?_, ?_⟩
  · unfold get_assignment
    rw [if_pos hxlen, if_neg (by decide)]
    rfl
  · unfold get_assignment
    rw [if_pos hxlen, if_neg (by decide)]
    rfl
  · unfold updateMacroClusters
    rw [if_neg (by rw [hup1]; exact Bool.false_ne_true)]
  · intro k dv h
    exact scanClosest_spec d _ _ _ _ k dv h

/-- C6, witness: the macro-mode query on the clusterless stale `state0`
with one-term input. -/
theorem C6_predict_macro_witness :
    (get_assignment (fun _ _ _ => 0) (fun _ _ => []) state0
        [("a", ⟨1, [none]⟩)] "macro").1 =
      ((scanClosest (fun _ _ _ => 0)
          (mkMicrocluster [("a", ⟨1, [none]⟩)] 1 1 (updateweightsState state0).realtime none none)
          (calculateIDF ((updateweightsState state0).microclusters.map Prod.snd))
          (updateweightsState state0).min_weight
          (updateweightsState state0).microclusters).map Prod.fst).bind
        (fun c => lookupA
          ((updateMacroClusters (fun _ _ => []) (updateweightsState state0)).microToMacro.getD [])
          c) ∧
    (get_assignment (fun _ _ _ => 0) (fun _ _ => []) state0
        [("a", ⟨1, [none]⟩)] "macro").2 =
      updateMacroClusters (fun _ _ => []) (updateweightsState state0) ∧
    (updateMacroClusters (fun _ _ => []) (updateweightsState state0)).upToDate = true ∧
    (∀ k dv, scanClosest (fun _ _ _ => 0)
          (mkMicrocluster [("a", ⟨1, [none]⟩)] 1 1 (updateweightsState state0).realtime none none)
          (calculateIDF ((updateweightsState state0).microclusters.map Prod.snd))
          (updateweightsState state0).min_weight
          (updateweightsState state0).microclusters = some (k, dv) →
      ∃ m, (k, m) ∈ (updateweightsState state0).microclusters ∧
        (updateweightsState state0).min_weight < m.weight ∧
        (fun (_ : Microcluster) (_ : Microcluster) (_ : Idf) => (0 : ℝ))
          (mkMicrocluster [("a", ⟨1, [none]⟩)] 1 1 (updateweightsState state0).realtime none none) m
          (calculateIDF ((updateweightsState state0).microclusters.map Prod.snd)) = dv ∧
        ∀ q ∈ (updateweightsState state0).microclusters,
          (updateweightsState state0).min_weight < q.2.weight →
          dv ≤ (fun (_ : Microcluster) (_ : Microcluster) (_ : Idf) => (0 : ℝ))
            (mkMicrocluster [("a", ⟨1, [none]⟩)] 1 1 (updateweightsState state0).realtime none none)
            q.2 (calculateIDF ((updateweightsState state0).microclusters.map Prod.snd))) :=
  C6_predict_macro (fun _ _ _ => 0) (fun _ _ => []) state0 [("a", ⟨1, [none]⟩)]
    (by simp) rfl

/-! ### C4: learn_one on an empty term mapping -/

/-- The concrete state of the C4 evaluation: one live cluster of weight 1,
cleanup due (`tgap = 1`, last cleanup at 0, current logical time 1). -/
noncomputable def c4state : TCState :=
  { state0 with
    tgap := 1,
    microclusters := [(0, mkMicrocluster [("a", ⟨1, [none]⟩)] 0 1 none none (some 0))] }

/-- C4.  Calling `learn_one` with an empty term mapping does NOT signal a
recoverable `EmptyObservation` and does NOT leave the store unchanged: the
code prints a message, still runs the periodic cleanup (here evicting the
only live cluster, so the live-cluster count changes from 1 to 0),
increments the observation counter, and then crashes with
`UnboundLocalError` on `return clusterId` (result `none`). -/
theorem C4_empty_observation_bug :
    (learn_one (fun _ _ _ => 0) c4state [] 0 (some 1)).1 = none ∧
    (learn_one (fun _ _ _ => 0) c4state [] 0 (some 1)).2.microclusters = [] ∧
    c4state.microclusters.length = 1 ∧
    (learn_one (fun _ _ _ => 0) c4state [] 0 (some 1)).2.n = c4state.n + 1 := by
  refine ⟨?_, ?_, by simp [c4state, state0], ?_⟩ <;>
    simp [learn_one, cleanup, updateweightsState, Microcluster.fade, c4state, state0,
      mkMicrocluster]

/-! ### C7: macro-cluster request with a single surviving cluster -/

/-- The concrete state of the C7 evaluation: exactly one live cluster, of
weight 5, above the weight threshold. -/
noncomputable def c7state : TCState :=
  { state0 with
    microclusters := [(0, mkMicrocluster [("a", ⟨2, [none]⟩)] 0 5 none none (some 0))] }

/-- C7.  With exactly one surviving cluster the reclustering branch assigns
it the literal macro label `1` (`assigned_clusters = [1]`), but
`get_macroclusters` creates representatives keyed `range(min(num_macro,
len(microclusters))) = {0}`; the merge loop then indexes `macros[1]` and
raises `KeyError` (result `none`) — the macro-cluster request does NOT
succeed, contradicting the claimed automatic recovery. -/
theorem C7_single_cluster_macro_bug :
    (get_macroclusters (fun _ _ => []) c7state).1 = none ∧
    c7state.microclusters.length = 1 ∧
    (updateMacroClusters (fun _ _ => []) c7state).microToMacro = some [(0, 1)] := by
  refine ⟨?_, by simp [c7state, state0], ?_⟩ <;>
    simp [get_macroclusters, updateMacroClusters, updateweightsState, Microcluster.fade,
      c7state, state0, mkMicrocluster, lookupA, updateAt]

end Textclust
